import Mathlib

/-!
Verification of the credential cipher of `src/helpers/cryptoHelpers.js`
(repository Arttribute/socials-api).

The JavaScript source calls into Node's `crypto` module
(`createCipheriv('aes-256-cbc', key, iv)`, `cipher.update`, `cipher.final`,
`Buffer.from(_, 'base64')`, `buf.toString('base64')`, `Buffer.from(_, 'utf8')`,
`buf.toString('utf8')`, `payload.split(':')`).  Those library operations are
embedded here concretely, following their documented and implemented
behaviour:

* AES-256 is implemented in full (S-box, ShiftRows, MixColumns over GF(2^8),
  the AES-256 key schedule, 14 rounds), together with CBC chaining and
  PKCS#7 padding exactly as OpenSSL applies and validates it
  (`EVP_CipherInit` / `EVP_DecryptFinal_ex`: pad byte n with 1 ≤ n ≤ 16 and
  the last n bytes all equal to n).
* Node's base64 decoder (`node/src/base64-inl.h`) skips characters outside
  the base64 alphabets (both standard and URL-safe) and STOPS decoding at
  the first `=`; trailing bits that do not fill a byte are discarded.
  The encoder is RFC 4648 with `=` padding.
* `Buffer.from(string)` is UTF-8 encoding; `buf.toString('utf8')` never
  fails and replaces invalid sequences by U+FFFD (WHATWG decoder).
* `cipher.update(plaintext, 'utf8', 'base64')` and `cipher.final('base64')`
  route their raw output bytes through one shared stateful `StringDecoder`
  cached on the cipher object, which carries the 1–2 leftover bytes of each
  `update` call over to the next call and flushes them (with the `=`
  padding) at `final`; the concatenation `update(...) + final(...)` is
  therefore the single contiguous base64 encoding of the whole ciphertext,
  equal to `Buffer.concat(allRawChunks).toString('base64')`.
* JavaScript `string.split(':')` splits at every colon; `string.length`
  counts UTF-16 code units.

Bytes are `Nat`s below 256; byte strings are `List Nat`.
-/

namespace SocialsApi

/-- All entries of a byte list are bytes (< 256). -/
def bytesOk (l : List Nat) : Prop := ∀ b ∈ l, b < 256

instance : DecidablePred bytesOk := fun l => List.decidableBAll _ l

/-! ## GF(2^8) arithmetic (AES field, reduction polynomial 0x11B) -/
/-- Multiplication by x in GF(2^8). -/
def xtime (b : Nat) : Nat := 2 * b % 256 ^^^ (if 128 ≤ b then 0x1B else 0)

/-- Russian-peasant multiplication in GF(2^8), recursing over the bits of `a`. -/
def gmulAux : Nat → Nat → Nat → Nat
  | 0, _, _ => 0
  | n + 1, a, b => (if a % 2 = 1 then b else 0) ^^^ gmulAux n (a / 2) (xtime b)

/-- GF(2^8) product (for multiplicands below 256). -/
def gmul (a b : Nat) : Nat := gmulAux 8 a b

/-- Distribution of `xtime` over XOR, checked exhaustively on bytes. -/
def xtimeLinB : Bool :=
  (List.range 256).all fun x =>
    (List.range 256).all fun y => xtime (x ^^^ y) == xtime x ^^^ xtime y

/-! ## The AES S-box and its inverse (FIPS-197) -/
def sboxT : List Nat := [
  99, 124, 119, 123, 242, 107, 111, 197, 48, 1, 103, 43, 254, 215, 171, 118,
  202, 130, 201, 125, 250, 89, 71, 240, 173, 212, 162, 175, 156, 164, 114, 192,
  183, 253, 147, 38, 54, 63, 247, 204, 52, 165, 229, 241, 113, 216, 49, 21,
  4, 199, 35, 195, 24, 150, 5, 154, 7, 18, 128, 226, 235, 39, 178, 117,
  9, 131, 44, 26, 27, 110, 90, 160, 82, 59, 214, 179, 41, 227, 47, 132,
  83, 209, 0, 237, 32, 252, 177, 91, 106, 203, 190, 57, 74, 76, 88, 207,
  208, 239, 170, 251, 67, 77, 51, 133, 69, 249, 2, 127, 80, 60, 159, 168,
  81, 163, 64, 143, 146, 157, 56, 245, 188, 182, 218, 33, 16, 255, 243, 210,
  205, 12, 19, 236, 95, 151, 68, 23, 196, 167, 126, 61, 100, 93, 25, 115,
  96, 129, 79, 220, 34, 42, 144, 136, 70, 238, 184, 20, 222, 94, 11, 219,
  224, 50, 58, 10, 73, 6, 36, 92, 194, 211, 172, 98, 145, 149, 228, 121,
  231, 200, 55, 109, 141, 213, 78, 169, 108, 86, 244, 234, 101, 122, 174, 8,
  186, 120, 37, 46, 28, 166, 180, 198, 232, 221, 116, 31, 75, 189, 139, 138,
  112, 62, 181, 102, 72, 3, 246, 14, 97, 53, 87, 185, 134, 193, 29, 158,
  225, 248, 152, 17, 105, 217, 142, 148, 155, 30, 135, 233, 206, 85, 40, 223,
  140, 161, 137, 13, 191, 230, 66, 104, 65, 153, 45, 15, 176, 84, 187, 22]

def invSboxT : List Nat := [
  82, 9, 106, 213, 48, 54, 165, 56, 191, 64, 163, 158, 129, 243, 215, 251,
  124, 227, 57, 130, 155, 47, 255, 135, 52, 142, 67, 68, 196, 222, 233, 203,
  84, 123, 148, 50, 166, 194, 35, 61, 238, 76, 149, 11, 66, 250, 195, 78,
  8, 46, 161, 102, 40, 217, 36, 178, 118, 91, 162, 73, 109, 139, 209, 37,
  114, 248, 246, 100, 134, 104, 152, 22, 212, 164, 92, 204, 93, 101, 182, 146,
  108, 112, 72, 80, 253, 237, 185, 218, 94, 21, 70, 87, 167, 141, 157, 132,
  144, 216, 171, 0, 140, 188, 211, 10, 247, 228, 88, 5, 184, 179, 69, 6,
  208, 44, 30, 143, 202, 63, 15, 2, 193, 175, 189, 3, 1, 19, 138, 107,
  58, 145, 17, 65, 79, 103, 220, 234, 151, 242, 207, 206, 240, 180, 230, 115,
  150, 172, 116, 34, 231, 173, 53, 133, 226, 249, 55, 232, 28, 117, 223, 110,
  71, 241, 26, 113, 29, 41, 197, 137, 111, 183, 98, 14, 170, 24, 190, 27,
  252, 86, 62, 75, 198, 210, 121, 32, 154, 219, 192, 254, 120, 205, 90, 244,
  31, 221, 168, 51, 136, 7, 199, 49, 177, 18, 16, 89, 39, 128, 236, 95,
  96, 81, 127, 169, 25, 181, 74, 13, 45, 229, 122, 159, 147, 201, 156, 239,
  160, 224, 59, 77, 174, 42, 245, 176, 200, 235, 187, 60, 131, 83, 153, 97,
  23, 43, 4, 126, 186, 119, 214, 38, 225, 105, 20, 99, 85, 33, 12, 125]

def sboxB (b : Nat) : Nat := sboxT.getD b 0

def invSboxB (b : Nat) : Nat := invSboxT.getD b 0

/-- The inverse S-box inverts the S-box, checked exhaustively. -/
def sboxInvB : Bool := (List.range 256).all fun x => invSboxB (sboxB x) == x

/-! ## AES state operations (state = 16 bytes, column-major) -/
def mapRange16 (f : Nat → Nat) : List Nat := (List.range 16).map f

/-- AddRoundKey: bytewise XOR with a round key. -/
def addRoundKey (s k : List Nat) : List Nat :=
  mapRange16 fun i => s.getD i 0 ^^^ k.getD i 0

/-- SubBytes. -/
def subBytes (s : List Nat) : List Nat := mapRange16 fun i => sboxB (s.getD i 0)

/-- InvSubBytes. -/
def invSubBytes (s : List Nat) : List Nat :=
  mapRange16 fun i => invSboxB (s.getD i 0)

/-- ShiftRows as a position permutation of the column-major state. -/
def shiftT : List Nat := [0, 5, 10, 15, 4, 9, 14, 3, 8, 13, 2, 7, 12, 1, 6, 11]

def invShiftT : List Nat := [0, 13, 10, 7, 4, 1, 14, 11, 8, 5, 2, 15, 12, 9, 6, 3]

def shiftRows (s : List Nat) : List Nat :=
  mapRange16 fun i => s.getD (shiftT.getD i 0) 0

def invShiftRows (s : List Nat) : List Nat :=
  mapRange16 fun i => s.getD (invShiftT.getD i 0) 0

/-- MixColumns matrix (row-major) and its inverse. -/
def mixT : List Nat := [2, 3, 1, 1, 1, 2, 3, 1, 1, 1, 2, 3, 3, 1, 1, 2]

def invMixT : List Nat := [14, 11, 13, 9, 9, 14, 11, 13, 13, 9, 14, 11, 11, 13, 9, 14]

/-- One output byte of a column mix: row `r` of the matrix against a column. -/
def mixCol (m : List Nat) (r a0 a1 a2 a3 : Nat) : Nat :=
  gmul (m.getD (4 * r) 0) a0 ^^^ gmul (m.getD (4 * r + 1) 0) a1 ^^^
    gmul (m.getD (4 * r + 2) 0) a2 ^^^ gmul (m.getD (4 * r + 3) 0) a3

def mixWith (m : List Nat) (s : List Nat) : List Nat :=
  mapRange16 fun i =>
    mixCol m (i % 4) (s.getD (i / 4 * 4) 0) (s.getD (i / 4 * 4 + 1) 0)
      (s.getD (i / 4 * 4 + 2) 0) (s.getD (i / 4 * 4 + 3) 0)

def mixColumns (s : List Nat) : List Nat := mixWith mixT s

def invMixColumns (s : List Nat) : List Nat := mixWith invMixT s

/-- Row `r` of the inverse matrix applied to the four copies of row outputs of
the forward matrix in column `j`, at a single byte `x`. -/
def mixComp (r j x : Nat) : Nat :=
  gmul (invMixT.getD (4 * r) 0) (gmul (mixT.getD j 0) x) ^^^
    gmul (invMixT.getD (4 * r + 1) 0) (gmul (mixT.getD (4 + j) 0) x) ^^^
    gmul (invMixT.getD (4 * r + 2) 0) (gmul (mixT.getD (8 + j) 0) x) ^^^
    gmul (invMixT.getD (4 * r + 3) 0) (gmul (mixT.getD (12 + j) 0) x)

/-- The inverse MixColumns matrix inverts the forward one, exhaustively on
single bytes (this is the matrix product being the identity over GF(2^8)). -/
def mixCompB : Bool :=
  (List.range 4).all fun r => (List.range 4).all fun j =>
    (List.range 256).all fun x => mixComp r j x == (if r == j then x else 0)

instance : Std.Associative (α := Nat) (· ^^^ ·) := ⟨Nat.xor_assoc⟩

instance : Std.Commutative (α := Nat) (· ^^^ ·) := ⟨Nat.xor_comm⟩

/-! ## AES-256 key schedule -/
def rconT : List Nat := [1, 2, 4, 8, 16, 32, 64]

def rotWord : List Nat → List Nat
  | [] => []
  | a :: rest => rest ++ [a]

def subWord (w : List Nat) : List Nat := w.map sboxB

def xorWord (a b : List Nat) : List Nat := List.zipWith (· ^^^ ·) a b

set_option maxRecDepth 100000 in
/-- Append the next word of the AES-256 key schedule. -/
def ksNext (ws : List (List Nat)) : List (List Nat) :=
  let i := ws.length
  let prev := ws.getD (i - 1) []
  let t :=
    if i % 8 = 0 then xorWord (subWord (rotWord prev)) [rconT.getD (i / 8 - 1) 0, 0, 0, 0]
    else if i % 8 = 4 then subWord prev
    else prev
  ws ++ [xorWord (ws.getD (i - 8) []) t]

def ksIter : Nat → List (List Nat) → List (List Nat)
  | 0, ws => ws
  | f + 1, ws => ksIter f (ksNext ws)

def initWords (key : List Nat) : List (List Nat) :=
  (List.range 8).map fun i =>
    [key.getD (4 * i) 0, key.getD (4 * i + 1) 0, key.getD (4 * i + 2) 0,
      key.getD (4 * i + 3) 0]

/-- The 60 words of the AES-256 key schedule. -/
def allWords (key : List Nat) : List (List Nat) := ksIter 52 (initWords key)

/-- The fifteen 16-byte round keys. -/
def roundKeys (key : List Nat) : List (List Nat) :=
  (List.range 15).map fun r =>
    (allWords key).getD (4 * r) [] ++ (allWords key).getD (4 * r + 1) [] ++
      (allWords key).getD (4 * r + 2) [] ++ (allWords key).getD (4 * r + 3) []

/-- Well-formed word lists: each word is 4 bytes. -/
def wordsOk (ws : List (List Nat)) : Prop := ∀ w ∈ ws, w.length = 4 ∧ bytesOk w

/-- Well-formed round keys: each is 16 bytes. -/
def rkOk (rks : List (List Nat)) : Prop := ∀ k ∈ rks, k.length = 16 ∧ bytesOk k

/-! ## The AES-256 block cipher (14 rounds) -/
def aesRound (rk s : List Nat) : List Nat :=
  addRoundKey (mixColumns (shiftRows (subBytes s))) rk

def aesFinalRound (rk s : List Nat) : List Nat :=
  addRoundKey (shiftRows (subBytes s)) rk

def invRoundStep (rk s : List Nat) : List Nat :=
  invSubBytes (invShiftRows (invMixColumns (addRoundKey s rk)))

def aesMidRounds : List Nat → List (List Nat) → List Nat
  | s, [] => s
  | s, rk :: rest => aesMidRounds (aesRound rk s) rest

def aesDecMid : List Nat → List (List Nat) → List Nat
  | s, [] => s
  | s, rk :: rest => aesDecMid (invRoundStep rk s) rest

def aesEncryptBlockK (rk0 : List Nat) (mid : List (List Nat)) (rkF b : List Nat) :
    List Nat :=
  aesFinalRound rkF (aesMidRounds (addRoundKey b rk0) mid)

def aesDecryptBlockK (rk0 : List Nat) (mid : List (List Nat)) (rkF b : List Nat) :
    List Nat :=
  addRoundKey (aesDecMid (invSubBytes (invShiftRows (addRoundKey b rkF))) mid.reverse) rk0

def rkMid (key : List Nat) : List (List Nat) := ((roundKeys key).drop 1).dropLast

def aesEncryptBlock (key b : List Nat) : List Nat :=
  aesEncryptBlockK ((roundKeys key).getD 0 []) (rkMid key) ((roundKeys key).getD 14 []) b

def aesDecryptBlock (key b : List Nat) : List Nat :=
  aesDecryptBlockK ((roundKeys key).getD 0 []) (rkMid key) ((roundKeys key).getD 14 []) b

/-! ## CBC chaining (as in `aes-256-cbc`) -/
/-- XOR of a plaintext block with the previous ciphertext block (or the IV). -/
def xorBlock (a b : List Nat) : List Nat := addRoundKey a b

def cbcEncBlocks (key : List Nat) : List Nat → List (List Nat) → List (List Nat)
  | _, [] => []
  | prev, b :: rest =>
    let c := aesEncryptBlock key (xorBlock b prev)
    c :: cbcEncBlocks key c rest

def cbcDecBlocks (key : List Nat) : List Nat → List (List Nat) → List (List Nat)
  | _, [] => []
  | prev, c :: rest => xorBlock (aesDecryptBlock key c) prev :: cbcDecBlocks key c rest

/-! ## PKCS#7 padding, as applied and checked by OpenSSL for a 16-byte block -/
def padBytes (b : List Nat) : List Nat :=
  b ++ List.replicate (16 - b.length % 16) (16 - b.length % 16)

def unpadBytes (b : List Nat) : Option (List Nat) :=
  let n := b.getD (b.length - 1) 0
  if 1 ≤ n ∧ n ≤ 16 ∧ n ≤ b.length ∧ b.drop (b.length - n) = List.replicate n n then
    some (b.take (b.length - n))
  else none

/-! ## Splitting a byte string into 16-byte blocks -/
def chunkAux : Nat → List Nat → List (List Nat)
  | 0, _ => []
  | _ + 1, [] => []
  | f + 1, a :: l => (a :: l).take 16 :: chunkAux f ((a :: l).drop 16)

def chunk16 (l : List Nat) : List (List Nat) := chunkAux l.length l

/-- CBC encryption of a byte string (already padded). -/
def cbcEncBytes (key iv data : List Nat) : List Nat :=
  (cbcEncBlocks key iv (chunk16 data)).flatten

/-- CBC decryption of a byte string. -/
def cbcDecBytes (key iv data : List Nat) : List Nat :=
  (cbcDecBlocks key iv (chunk16 data)).flatten

/-! ## Base64: RFC 4648 encoder and the forgiving decoder of Node's
`Buffer.from(_, 'base64')` (invalid characters skipped, decoding stops at the
first `=`, trailing bits discarded). -/
def b64Alpha : List Char :=
  "ABCDEFGHIJKLMNOPQRSTUVWXYZabcdefghijklmnopqrstuvwxyz0123456789+/".data

def b64Char (n : Nat) : Char := b64Alpha.getD n 'A'

/-- The encoder `buf.toString('base64')`. -/
def b64EncGroups : List Nat → List Char
  | [] => []
  | [b0] => [b64Char (b0 / 4), b64Char (b0 % 4 * 16), '=', '=']
  | [b0, b1] =>
    [b64Char (b0 / 4), b64Char (b0 % 4 * 16 + b1 / 16), b64Char (b1 % 16 * 4), '=']
  | b0 :: b1 :: b2 :: rest =>
    b64Char (b0 / 4) :: b64Char (b0 % 4 * 16 + b1 / 16) ::
      b64Char (b1 % 16 * 4 + b2 / 64) :: b64Char (b2 % 64) :: b64EncGroups rest

/-- Node's base64 value table: standard and URL-safe alphabets. -/
def b64Val (c : Char) : Option Nat :=
  let n := c.toNat
  if 65 ≤ n ∧ n ≤ 90 then some (n - 65)
  else if 97 ≤ n ∧ n ≤ 122 then some (n - 71)
  else if 48 ≤ n ∧ n ≤ 57 then some (n + 4)
  else if n = 43 ∨ n = 45 then some 62
  else if n = 47 ∨ n = 95 then some 63
  else none

/-- Collect 6-bit values: skip invalid characters, stop at the first `=`. -/
def b64Scan : List Char → List Nat
  | [] => []
  | c :: rest =>
    if c = '=' then []
    else
      match b64Val c with
      | some v => v :: b64Scan rest
      | none => b64Scan rest

/-- Reassemble 6-bit values into bytes; a trailing group of 2 or 3 values
yields 1 or 2 bytes, a single leftover value is dropped. -/
def b64DecGroups : List Nat → List Nat
  | v0 :: v1 :: v2 :: v3 :: rest =>
    (v0 * 4 + v1 / 16) :: (v1 % 16 * 16 + v2 / 4) :: (v2 % 4 * 64 + v3) ::
      b64DecGroups rest
  | [v0, v1] => [v0 * 4 + v1 / 16]
  | [v0, v1, v2] => [v0 * 4 + v1 / 16, v1 % 16 * 16 + v2 / 4]
  | _ => []

/-- The decoder `Buffer.from(s, 'base64')`. -/
def nodeB64Dec (s : List Char) : List Nat := b64DecGroups (b64Scan s)

/-- The 6-bit expansion of a byte string (what scanning its encoding yields). -/
def b64Vals : List Nat → List Nat
  | [] => []
  | [b0] => [b0 / 4, b0 % 4 * 16]
  | [b0, b1] => [b0 / 4, b0 % 4 * 16 + b1 / 16, b1 % 16 * 4]
  | b0 :: b1 :: b2 :: rest =>
    b0 / 4 :: (b0 % 4 * 16 + b1 / 16) :: (b1 % 16 * 4 + b2 / 64) :: b2 % 64 ::
      b64Vals rest

/-! ## UTF-8: `Buffer.from(s, 'utf8')` and `buf.toString('utf8')` (the latter
never fails; invalid sequences become U+FFFD, WHATWG decoder) -/
def utf8EncodeChar (c : Nat) : List Nat :=
  if c < 0x80 then [c]
  else if c < 0x800 then [0xC0 + c / 64, 0x80 + c % 64]
  else if c < 0x10000 then [0xE0 + c / 4096, 0x80 + c / 64 % 64, 0x80 + c % 64]
  else [0xF0 + c / 262144, 0x80 + c / 4096 % 64, 0x80 + c / 64 % 64, 0x80 + c % 64]

def utf8Encode (s : String) : List Nat :=
  (s.data.map fun c => utf8EncodeChar c.toNat).flatten

def replChar : Char := Char.ofNat 0xFFFD

/-- Second byte of a two-byte sequence. -/
def utf8Cont2 (b : Nat) : List Nat → Char × List Nat
  | b1 :: r1 =>
    if 0x80 ≤ b1 ∧ b1 < 0xC0 then (Char.ofNat ((b - 0xC0) * 64 + (b1 - 0x80)), r1)
    else (replChar, b1 :: r1)
  | [] => (replChar, [])

/-- Third byte of a three-byte sequence (`v` = value so far). -/
def utf8Cont3b (v : Nat) : List Nat → Char × List Nat
  | b2 :: r2 =>
    if 0x80 ≤ b2 ∧ b2 < 0xC0 then (Char.ofNat (v * 64 + (b2 - 0x80)), r2)
    else (replChar, b2 :: r2)
  | [] => (replChar, [])

/-- Second byte of a three-byte sequence (range depends on the lead byte). -/
def utf8Cont3 (b : Nat) : List Nat → Char × List Nat
  | b1 :: r1 =>
    if (if b = 0xE0 then 0xA0 else 0x80) ≤ b1 ∧
        b1 < (if b = 0xED then 0xA0 else 0xC0) then
      utf8Cont3b ((b - 0xE0) * 64 + (b1 - 0x80)) r1
    else (replChar, b1 :: r1)
  | [] => (replChar, [])

/-- Fourth byte of a four-byte sequence. -/
def utf8Cont4c (v : Nat) : List Nat → Char × List Nat
  | b3 :: r3 =>
    if 0x80 ≤ b3 ∧ b3 < 0xC0 then (Char.ofNat (v * 64 + (b3 - 0x80)), r3)
    else (replChar, b3 :: r3)
  | [] => (replChar, [])

/-- Third byte of a four-byte sequence. -/
def utf8Cont4b (v : Nat) : List Nat → Char × List Nat
  | b2 :: r2 =>
    if 0x80 ≤ b2 ∧ b2 < 0xC0 then utf8Cont4c (v * 64 + (b2 - 0x80)) r2
    else (replChar, b2 :: r2)
  | [] => (replChar, [])

/-- Second byte of a four-byte sequence (range depends on the lead byte). -/
def utf8Cont4 (b : Nat) : List Nat → Char × List Nat
  | b1 :: r1 =>
    if (if b = 0xF0 then 0x90 else 0x80) ≤ b1 ∧
        b1 < (if b = 0xF4 then 0x90 else 0xC0) then
      utf8Cont4b ((b - 0xF0) * 64 + (b1 - 0x80)) r1
    else (replChar, b1 :: r1)
  | [] => (replChar, [])

/-- Decode one scalar value (or one replacement for a maximal invalid
subpart) from the front of a byte string. -/
def utf8Step : List Nat → Char × List Nat
  | [] => (replChar, [])
  | b :: rest =>
    if b < 0x80 then (Char.ofNat b, rest)
    else if b < 0xC2 then (replChar, rest)
    else if b < 0xE0 then utf8Cont2 b rest
    else if b < 0xF0 then utf8Cont3 b rest
    else if b < 0xF5 then utf8Cont4 b rest
    else (replChar, rest)

def utf8DecodeAux : Nat → List Nat → List Char
  | 0, _ => []
  | f + 1, l =>
    if l = [] then [] else (utf8Step l).1 :: utf8DecodeAux f (utf8Step l).2

def utf8Decode (l : List Nat) : String := String.mk (utf8DecodeAux l.length l)

/-! ## JavaScript string operations -/
/-- The split `payload.split(':')` (JavaScript splits at every occurrence). -/
def splitColon : List Char → List (List Char)
  | [] => [[]]
  | c :: rest =>
    if c = ':' then [] :: splitColon rest
    else
      match splitColon rest with
      | p :: ps => (c :: p) :: ps
      | [] => [[c]]

/-- JavaScript `string.length`: the number of UTF-16 code units. -/
def jsLength (s : String) : Nat :=
  (s.data.map fun c => if c.toNat < 0x10000 then 1 else 2).sum

/-- The module-level startup check of `cryptoHelpers.js`:
`if (!ENCRYPTION_KEY || ENCRYPTION_KEY.length !== 32) throw ...`.
`none` models an unset environment variable. -/
def startupOk (key : Option String) : Bool :=
  match key with
  | none => false
  | some k => !(k == "") && jsLength k == 32

/-! ## The two exported operations of `cryptoHelpers.js`.

Randomness is made explicit: `encrypt` takes the 16-byte output of
`crypto.randomBytes(16)` as the `iv` argument. -/
inductive CryptoError where
  | invalidIvLength
  | invalidKeyLength
  | typeErrorUndefined
  | wrongFinalBlockLength
  | badDecrypt
deriving DecidableEq, Repr

instance : DecidableEq (Except CryptoError String) := fun x y =>
  match x, y with
  | .ok a, .ok b =>
    if h : a = b then .isTrue (by rw [h])
    else .isFalse fun hc => h (Except.ok.inj hc)
  | .error a, .error b =>
    if h : a = b then .isTrue (by rw [h])
    else .isFalse fun hc => h (Except.error.inj hc)
  | .ok _, .error _ => .isFalse fun hc => Except.noConfusion hc
  | .error _, .ok _ => .isFalse fun hc => Except.noConfusion hc

/-- Function `encrypt(plaintext)` from `cryptoHelpers.js`.  `createCipheriv` validates
the IV and then the key; `cipher.update(plaintext, 'utf8', 'base64')` and
`cipher.final('base64')` share one stateful `StringDecoder`, so the string
`cipher.update(...) + cipher.final(...)` is the contiguous base64 of the
whole ciphertext, prefixed with `base64(iv) + ':'`. -/
def encrypt (key : String) (iv : List Nat) (plaintext : String) :
    Except CryptoError String :=
  if iv.length ≠ 16 then .error .invalidIvLength
  else if (utf8Encode key).length ≠ 32 then .error .invalidKeyLength
  else
    .ok (String.mk (b64EncGroups iv ++ ':' ::
      b64EncGroups (cbcEncBytes (utf8Encode key) iv (padBytes (utf8Encode plaintext)))))

/-- Function `decrypt(payload)` from `cryptoHelpers.js`.  `payload.split(':')` is
destructured into its first two elements; `Buffer.from(_, 'base64')` decodes
them forgivingly; `createDecipheriv` validates the IV and then the key;
`decipher.update`/`final` require a nonzero ciphertext of whole blocks and
valid PKCS#7 padding. -/
def decrypt (key : String) (payload : String) : Except CryptoError String :=
  let parts := splitColon payload.data
  let ivB := nodeB64Dec (parts.getD 0 [])
  if ivB.length ≠ 16 then .error .invalidIvLength
  else if (utf8Encode key).length ≠ 32 then .error .invalidKeyLength
  else if parts.length < 2 then .error .typeErrorUndefined
  else
    let ctB := nodeB64Dec (parts.getD 1 [])
    if ctB.length % 16 ≠ 0 ∨ ctB.length = 0 then .error .wrongFinalBlockLength
    else
      match unpadBytes (cbcDecBytes (utf8Encode key) ivB ctB) with
      | none => .error .badDecrypt
      | some pb => .ok (utf8Decode pb)

theorem bytesOk_append {a b : List Nat} (ha : bytesOk a) (hb : bytesOk b) :
    bytesOk (a ++ b) := by
  intro x hx
  rcases List.mem_append.mp hx with h | h
  · exact ha x h
  · exact hb x h

theorem getD_lt_of_bytesOk {l : List Nat} (h : bytesOk l) {d : Nat} (hd : d < 256)
    (i : Nat) : l.getD i d < 256 := by
  rcases Nat.lt_or_ge i l.length with hi | hi
  · rw [List.getD_eq_getElem l d hi]
    exact h _ (List.getElem_mem hi)
  · rw [List.getD_eq_default l d hi]
    exact hd

theorem xtime_lt (b : Nat) : xtime b < 256 := by
  have h1 : 2 * b % 256 < 2 ^ 8 := Nat.mod_lt _ (by norm_num)
  have h2 : (if 128 ≤ b then 0x1B else 0) < 2 ^ 8 := by split <;> norm_num
  exact Nat.xor_lt_two_pow h1 h2

theorem gmulAux_lt (n : Nat) : ∀ a b, b < 256 → gmulAux n a b < 256 := by
  induction n with
  | zero => intro a b _; simp [gmulAux]
  | succ n ih =>
    intro a b hb
    have h1 : (if a % 2 = 1 then b else 0) < 2 ^ 8 := by split <;> omega
    have h2 : gmulAux n (a / 2) (xtime b) < 2 ^ 8 := ih _ _ (xtime_lt b)
    exact Nat.xor_lt_two_pow h1 h2

theorem gmul_lt (a b : Nat) (hb : b < 256) : gmul a b < 256 := gmulAux_lt 8 a b hb

theorem xor_left_comm (a b c : Nat) : a ^^^ (b ^^^ c) = b ^^^ (a ^^^ c) := by
  rw [← Nat.xor_assoc, Nat.xor_comm a b, Nat.xor_assoc]

set_option maxRecDepth 10000 in
set_option maxHeartbeats 0 in
theorem xtimeLinB_true : xtimeLinB = true := by decide

theorem xtime_xor {x y : Nat} (hx : x < 256) (hy : y < 256) :
    xtime (x ^^^ y) = xtime x ^^^ xtime y := by
  have h1 := List.all_eq_true.mp xtimeLinB_true x (List.mem_range.mpr hx)
  have h2 := List.all_eq_true.mp h1 y (List.mem_range.mpr hy)
  exact eq_of_beq h2

theorem gmulAux_xor (n : Nat) : ∀ a x y, x < 256 → y < 256 →
    gmulAux n a (x ^^^ y) = gmulAux n a x ^^^ gmulAux n a y := by
  induction n with
  | zero => intro a x y _ _; simp [gmulAux]
  | succ n ih =>
    intro a x y hx hy
    simp only [gmulAux]
    rw [xtime_xor hx hy, ih (a / 2) (xtime x) (xtime y) (xtime_lt x) (xtime_lt y)]
    by_cases h : a % 2 = 1
    · simp only [if_pos h]
      simp only [Nat.xor_assoc]
      congr 1
      rw [xor_left_comm]
    · simp only [if_neg h, Nat.zero_xor]

theorem gmul_xor (a : Nat) {x y : Nat} (hx : x < 256) (hy : y < 256) :
    gmul a (x ^^^ y) = gmul a x ^^^ gmul a y := gmulAux_xor 8 a x y hx hy

theorem xor_lt_256 {x y : Nat} (hx : x < 256) (hy : y < 256) : x ^^^ y < 256 :=
  Nat.xor_lt_two_pow (n := 8) hx hy

theorem gmul_xor4 (a : Nat) {t0 t1 t2 t3 : Nat} (h0 : t0 < 256) (h1 : t1 < 256)
    (h2 : t2 < 256) (h3 : t3 < 256) :
    gmul a (t0 ^^^ t1 ^^^ t2 ^^^ t3) =
      gmul a t0 ^^^ gmul a t1 ^^^ gmul a t2 ^^^ gmul a t3 := by
  rw [gmul_xor a (xor_lt_256 (xor_lt_256 h0 h1) h2) h3,
    gmul_xor a (xor_lt_256 h0 h1) h2, gmul_xor a h0 h1]

set_option maxRecDepth 4000 in
theorem sboxT_ok : bytesOk sboxT := by decide

set_option maxRecDepth 4000 in
theorem invSboxT_ok : bytesOk invSboxT := by decide

theorem sboxB_lt (b : Nat) : sboxB b < 256 :=
  getD_lt_of_bytesOk sboxT_ok (by norm_num) b

theorem invSboxB_lt (b : Nat) : invSboxB b < 256 :=
  getD_lt_of_bytesOk invSboxT_ok (by norm_num) b

set_option maxRecDepth 10000 in
set_option maxHeartbeats 1000000 in
theorem sboxInvB_true : sboxInvB = true := by decide

theorem invSboxB_sboxB {x : Nat} (hx : x < 256) : invSboxB (sboxB x) = x :=
  eq_of_beq (List.all_eq_true.mp sboxInvB_true x (List.mem_range.mpr hx))

theorem length_mapRange16 (f : Nat → Nat) : (mapRange16 f).length = 16 := by
  simp [mapRange16]

theorem getD_mapRange16 (f : Nat → Nat) {i : Nat} (h : i < 16) (d : Nat) :
    (mapRange16 f).getD i d = f i := by
  have hlen : i < (mapRange16 f).length := by rw [length_mapRange16]; exact h
  rw [List.getD_eq_getElem _ d hlen]
  simp [mapRange16]

theorem bytesOk_mapRange16 {f : Nat → Nat} (h : ∀ i, f i < 256) :
    bytesOk (mapRange16 f) := by
  intro b hb
  rcases List.mem_map.mp hb with ⟨i, _, rfl⟩
  exact h i

theorem mapRange_getD_eq : ∀ (s : List Nat), (List.range s.length).map
    (fun i => s.getD i 0) = s := by
  intro s
  induction s with
  | nil => rfl
  | cons a t ih =>
    have hf : ((fun i => (a :: t).getD i 0) ∘ Nat.succ) = fun i => t.getD i 0 :=
      funext fun i => by simp
    rw [List.length_cons, List.range_succ_eq_map, List.map_cons, List.map_map, hf, ih]
    simp

theorem mapRange16_getD_eq {s : List Nat} (h : s.length = 16) :
    mapRange16 (fun i => s.getD i 0) = s := by
  have := mapRange_getD_eq s
  rw [h] at this
  exact this

set_option maxRecDepth 10000 in
set_option maxHeartbeats 0 in
theorem mixCompB_true : mixCompB = true := by decide

theorem mixComp_eq {r j x : Nat} (hr : r < 4) (hj : j < 4) (hx : x < 256) :
    mixComp r j x = if r = j then x else 0 := by
  have h1 := List.all_eq_true.mp mixCompB_true r (List.mem_range.mpr hr)
  have h2 := List.all_eq_true.mp h1 j (List.mem_range.mpr hj)
  have h3 := List.all_eq_true.mp h2 x (List.mem_range.mpr hx)
  have := eq_of_beq h3
  simpa [beq_iff_eq] using this

theorem mapRange16_congr {f g : Nat → Nat} (h : ∀ i < 16, f i = g i) :
    mapRange16 f = mapRange16 g := by
  apply List.map_congr_left
  intro i hi
  exact h i (List.mem_range.mp hi)

theorem addRoundKey_inv {s : List Nat} (k : List Nat) (h : s.length = 16) :
    addRoundKey (addRoundKey s k) k = s := by
  unfold addRoundKey
  rw [mapRange16_congr (g := fun i => s.getD i 0)]
  · exact mapRange16_getD_eq h
  · intro i hi
    rw [getD_mapRange16 _ hi]
    exact Nat.xor_cancel_right _ _

theorem invSubBytes_subBytes {s : List Nat} (h : s.length = 16) (hok : bytesOk s) :
    invSubBytes (subBytes s) = s := by
  unfold invSubBytes subBytes
  rw [mapRange16_congr (g := fun i => s.getD i 0)]
  · exact mapRange16_getD_eq h
  · intro i hi
    rw [getD_mapRange16 _ hi]
    exact invSboxB_sboxB (getD_lt_of_bytesOk hok (by norm_num) i)

theorem shiftTables_inv : ∀ i < 16, invShiftT.getD i 0 < 16 ∧
    shiftT.getD (invShiftT.getD i 0) 0 = i := by decide

theorem invShiftRows_shiftRows {s : List Nat} (h : s.length = 16) :
    invShiftRows (shiftRows s) = s := by
  unfold invShiftRows shiftRows
  rw [mapRange16_congr (g := fun i => s.getD i 0)]
  · exact mapRange16_getD_eq h
  · intro i hi
    obtain ⟨hlt, heq⟩ := shiftTables_inv i hi
    rw [getD_mapRange16 _ hlt, heq]

theorem bytesOk_addRoundKey {s k : List Nat} (hs : bytesOk s) (hk : bytesOk k) :
    bytesOk (addRoundKey s k) :=
  bytesOk_mapRange16 fun i => xor_lt_256
    (getD_lt_of_bytesOk hs (by norm_num) i) (getD_lt_of_bytesOk hk (by norm_num) i)

theorem bytesOk_subBytes (s : List Nat) : bytesOk (subBytes s) :=
  bytesOk_mapRange16 fun _ => sboxB_lt _

theorem bytesOk_invSubBytes (s : List Nat) : bytesOk (invSubBytes s) :=
  bytesOk_mapRange16 fun _ => invSboxB_lt _

theorem bytesOk_shiftRows {s : List Nat} (hs : bytesOk s) : bytesOk (shiftRows s) :=
  bytesOk_mapRange16 fun i => getD_lt_of_bytesOk hs (by norm_num) _

theorem bytesOk_invShiftRows {s : List Nat} (hs : bytesOk s) :
    bytesOk (invShiftRows s) :=
  bytesOk_mapRange16 fun i => getD_lt_of_bytesOk hs (by norm_num) _

theorem mixCol_lt (m : List Nat) (r : Nat) {a0 a1 a2 a3 : Nat} (h0 : a0 < 256)
    (h1 : a1 < 256) (h2 : a2 < 256) (h3 : a3 < 256) :
    mixCol m r a0 a1 a2 a3 < 256 :=
  xor_lt_256 (xor_lt_256 (xor_lt_256 (gmul_lt _ _ h0) (gmul_lt _ _ h1))
    (gmul_lt _ _ h2)) (gmul_lt _ _ h3)

theorem bytesOk_mixWith (m : List Nat) {s : List Nat} (hs : bytesOk s) :
    bytesOk (mixWith m s) :=
  bytesOk_mapRange16 fun i => mixCol_lt m _
    (getD_lt_of_bytesOk hs (by norm_num) _) (getD_lt_of_bytesOk hs (by norm_num) _)
    (getD_lt_of_bytesOk hs (by norm_num) _) (getD_lt_of_bytesOk hs (by norm_num) _)

theorem mixCol_comp (r a0 a1 a2 a3 : Nat) (h0 : a0 < 256) (h1 : a1 < 256)
    (h2 : a2 < 256) (h3 : a3 < 256) :
    mixCol invMixT r (mixCol mixT 0 a0 a1 a2 a3) (mixCol mixT 1 a0 a1 a2 a3)
      (mixCol mixT 2 a0 a1 a2 a3) (mixCol mixT 3 a0 a1 a2 a3) =
      mixComp r 0 a0 ^^^ mixComp r 1 a1 ^^^ mixComp r 2 a2 ^^^ mixComp r 3 a3 := by
  have u0 : mixCol mixT 0 a0 a1 a2 a3 =
      gmul 2 a0 ^^^ gmul 3 a1 ^^^ gmul 1 a2 ^^^ gmul 1 a3 := rfl
  have u1 : mixCol mixT 1 a0 a1 a2 a3 =
      gmul 1 a0 ^^^ gmul 2 a1 ^^^ gmul 3 a2 ^^^ gmul 1 a3 := rfl
  have u2 : mixCol mixT 2 a0 a1 a2 a3 =
      gmul 1 a0 ^^^ gmul 1 a1 ^^^ gmul 2 a2 ^^^ gmul 3 a3 := rfl
  have u3 : mixCol mixT 3 a0 a1 a2 a3 =
      gmul 3 a0 ^^^ gmul 1 a1 ^^^ gmul 1 a2 ^^^ gmul 2 a3 := rfl
  have v : ∀ x0 x1 x2 x3 : Nat, mixCol invMixT r x0 x1 x2 x3 =
      gmul (invMixT.getD (4 * r) 0) x0 ^^^ gmul (invMixT.getD (4 * r + 1) 0) x1 ^^^
        gmul (invMixT.getD (4 * r + 2) 0) x2 ^^^ gmul (invMixT.getD (4 * r + 3) 0) x3 :=
    fun _ _ _ _ => rfl
  have w : ∀ j x : Nat, mixComp r j x =
      gmul (invMixT.getD (4 * r) 0) (gmul (mixT.getD j 0) x) ^^^
        gmul (invMixT.getD (4 * r + 1) 0) (gmul (mixT.getD (4 + j) 0) x) ^^^
        gmul (invMixT.getD (4 * r + 2) 0) (gmul (mixT.getD (8 + j) 0) x) ^^^
        gmul (invMixT.getD (4 * r + 3) 0) (gmul (mixT.getD (12 + j) 0) x) :=
    fun _ _ => rfl
  have m0 : mixT.getD 0 0 = 2 := rfl
  have m1 : mixT.getD 1 0 = 3 := rfl
  have m2 : mixT.getD 2 0 = 1 := rfl
  have m3 : mixT.getD 3 0 = 1 := rfl
  have m4 : mixT.getD (4 + 0) 0 = 1 := rfl
  have m5 : mixT.getD (4 + 1) 0 = 2 := rfl
  have m6 : mixT.getD (4 + 2) 0 = 3 := rfl
  have m7 : mixT.getD (4 + 3) 0 = 1 := rfl
  have m8 : mixT.getD (8 + 0) 0 = 1 := rfl
  have m9 : mixT.getD (8 + 1) 0 = 1 := rfl
  have m10 : mixT.getD (8 + 2) 0 = 2 := rfl
  have m11 : mixT.getD (8 + 3) 0 = 3 := rfl
  have m12 : mixT.getD (12 + 0) 0 = 3 := rfl
  have m13 : mixT.getD (12 + 1) 0 = 1 := rfl
  have m14 : mixT.getD (12 + 2) 0 = 1 := rfl
  have m15 : mixT.getD (12 + 3) 0 = 2 := rfl
  rw [v, u0, u1, u2, u3, w 0 a0, w 1 a1, w 2 a2, w 3 a3,
    m0, m1, m2, m3, m4, m5, m6, m7, m8, m9, m10, m11, m12, m13, m14, m15,
    gmul_xor4 _ (gmul_lt 2 a0 h0) (gmul_lt 3 a1 h1) (gmul_lt 1 a2 h2) (gmul_lt 1 a3 h3),
    gmul_xor4 _ (gmul_lt 1 a0 h0) (gmul_lt 2 a1 h1) (gmul_lt 3 a2 h2) (gmul_lt 1 a3 h3),
    gmul_xor4 _ (gmul_lt 1 a0 h0) (gmul_lt 1 a1 h1) (gmul_lt 2 a2 h2) (gmul_lt 3 a3 h3),
    gmul_xor4 _ (gmul_lt 3 a0 h0) (gmul_lt 1 a1 h1) (gmul_lt 1 a2 h2) (gmul_lt 2 a3 h3)]
  ac_rfl

theorem mixCol_mixCol {r : Nat} (hr : r < 4) {a0 a1 a2 a3 : Nat} (h0 : a0 < 256)
    (h1 : a1 < 256) (h2 : a2 < 256) (h3 : a3 < 256) :
    mixCol invMixT r (mixCol mixT 0 a0 a1 a2 a3) (mixCol mixT 1 a0 a1 a2 a3)
      (mixCol mixT 2 a0 a1 a2 a3) (mixCol mixT 3 a0 a1 a2 a3) =
      [a0, a1, a2, a3].getD r 0 := by
  rw [mixCol_comp r a0 a1 a2 a3 h0 h1 h2 h3]
  rcases (by omega : r = 0 ∨ r = 1 ∨ r = 2 ∨ r = 3) with rfl | rfl | rfl | rfl <;>
    rw [mixComp_eq (by norm_num) (by norm_num) h0,
      mixComp_eq (by norm_num) (by norm_num) h1,
      mixComp_eq (by norm_num) (by norm_num) h2,
      mixComp_eq (by norm_num) (by norm_num) h3] <;>
    simp

theorem invMixColumns_mixColumns {s : List Nat} (h : s.length = 16)
    (hok : bytesOk s) : invMixColumns (mixColumns s) = s := by
  unfold invMixColumns mixColumns mixWith
  rw [mapRange16_congr (g := fun i => s.getD i 0)]
  · exact mapRange16_getD_eq h
  · intro i hi
    have g0 : i / 4 * 4 < 16 := by omega
    have g1 : i / 4 * 4 + 1 < 16 := by omega
    have g2 : i / 4 * 4 + 2 < 16 := by omega
    have g3 : i / 4 * 4 + 3 < 16 := by omega
    rw [getD_mapRange16 _ g0 0, getD_mapRange16 _ g1 0, getD_mapRange16 _ g2 0,
      getD_mapRange16 _ g3 0]
    rw [show i / 4 * 4 % 4 = 0 from by omega,
      show i / 4 * 4 / 4 * 4 = i / 4 * 4 from by omega,
      show (i / 4 * 4 + 1) % 4 = 1 from by omega,
      show (i / 4 * 4 + 1) / 4 * 4 = i / 4 * 4 from by omega,
      show (i / 4 * 4 + 2) % 4 = 2 from by omega,
      show (i / 4 * 4 + 2) / 4 * 4 = i / 4 * 4 from by omega,
      show (i / 4 * 4 + 3) % 4 = 3 from by omega,
      show (i / 4 * 4 + 3) / 4 * 4 = i / 4 * 4 from by omega]
    rw [mixCol_mixCol (show i % 4 < 4 from by omega)
      (getD_lt_of_bytesOk hok (by norm_num) _) (getD_lt_of_bytesOk hok (by norm_num) _)
      (getD_lt_of_bytesOk hok (by norm_num) _) (getD_lt_of_bytesOk hok (by norm_num) _)]
    rcases (by omega : i % 4 = 0 ∨ i % 4 = 1 ∨ i % 4 = 2 ∨ i % 4 = 3) with h4 | h4 | h4 | h4 <;>
      rw [h4]
    · show s.getD (i / 4 * 4) 0 = s.getD i 0
      rw [show i / 4 * 4 = i from by omega]
    · show s.getD (i / 4 * 4 + 1) 0 = s.getD i 0
      rw [show i / 4 * 4 + 1 = i from by omega]
    · show s.getD (i / 4 * 4 + 2) 0 = s.getD i 0
      rw [show i / 4 * 4 + 2 = i from by omega]
    · show s.getD (i / 4 * 4 + 3) 0 = s.getD i 0
      rw [show i / 4 * 4 + 3 = i from by omega]

theorem getD_wordsOk {ws : List (List Nat)} (h : wordsOk ws) (i : Nat) :
    (ws.getD i []).length = 4 ∧ bytesOk (ws.getD i []) ∨ ws.getD i [] = [] := by
  rcases Nat.lt_or_ge i ws.length with hi | hi
  · left
    rw [List.getD_eq_getElem ws [] hi]
    exact h _ (List.getElem_mem hi)
  · right
    rw [List.getD_eq_default ws [] hi]

theorem getD_wordsOk_of_lt {ws : List (List Nat)} (h : wordsOk ws) {i : Nat}
    (hi : i < ws.length) : (ws.getD i []).length = 4 ∧ bytesOk (ws.getD i []) := by
  rw [List.getD_eq_getElem ws [] hi]
  exact h _ (List.getElem_mem hi)

theorem bytesOk_xorWord {a b : List Nat} (ha : bytesOk a) (hb : bytesOk b) :
    bytesOk (xorWord a b) := by
  intro x hx
  rw [List.mem_iff_getElem] at hx
  obtain ⟨i, hi, rfl⟩ := hx
  simp only [xorWord] at hi ⊢
  rw [List.getElem_zipWith]
  have hi2 : i < (List.zipWith (· ^^^ ·) a b).length := hi
  rw [List.length_zipWith] at hi2
  exact xor_lt_256 (ha _ (List.getElem_mem (by omega))) (hb _ (List.getElem_mem (by omega)))

theorem length_xorWord (a b : List Nat) :
    (xorWord a b).length = min a.length b.length := List.length_zipWith _ _ _

theorem wordOk_xorWord {a b : List Nat} (ha : a.length = 4 ∧ bytesOk a)
    (hb : b.length = 4 ∧ bytesOk b) :
    (xorWord a b).length = 4 ∧ bytesOk (xorWord a b) := by
  refine ⟨?_, bytesOk_xorWord ha.2 hb.2⟩
  rw [length_xorWord, ha.1, hb.1]
  exact Nat.min_self 4

theorem wordOk_subWord {w : List Nat} (hw : w.length = 4) :
    (subWord w).length = 4 ∧ bytesOk (subWord w) := by
  constructor
  · rw [subWord, List.length_map, hw]
  · intro x hx
    rcases List.mem_map.mp hx with ⟨u, _, rfl⟩
    exact sboxB_lt u

theorem wordOk_rotWord {w : List Nat} (hw : w.length = 4 ∧ bytesOk w) :
    (rotWord w).length = 4 ∧ bytesOk (rotWord w) := by
  rcases w with _ | ⟨a, rest⟩
  · exact hw
  · constructor
    · have h1 := hw.1
      simp only [List.length_cons] at h1
      simp only [rotWord, List.length_append, List.length_cons, List.length_nil]
      omega
    · intro x hx
      simp only [rotWord] at hx
      rcases List.mem_append.mp hx with h | h
      · exact hw.2 x (List.mem_cons_of_mem a h)
      · rcases List.mem_singleton.mp h with rfl
        exact hw.2 x (List.mem_cons_self x rest)

theorem wordsOk_ksNext {ws : List (List Nat)} (h : wordsOk ws)
    (hlen : 1 ≤ ws.length) : wordsOk (ksNext ws) := by
  intro w hw
  unfold ksNext at hw
  rcases List.mem_append.mp hw with hmem | hmem
  · exact h w hmem
  · rcases List.mem_singleton.mp hmem with rfl
    have hprev := getD_wordsOk_of_lt h (show ws.length - 1 < ws.length by omega)
    have hrcon : ([rconT.getD (ws.length / 8 - 1) 0, 0, 0, 0] : List Nat).length = 4 ∧
        bytesOk [rconT.getD (ws.length / 8 - 1) 0, 0, 0, 0] := by
      refine ⟨rfl, ?_⟩
      intro x hx
      have hr : bytesOk rconT := by decide
      simp only [List.mem_cons, List.not_mem_nil, or_false] at hx
      rcases hx with rfl | rfl | rfl | rfl
      · exact getD_lt_of_bytesOk hr (by norm_num) _
      · norm_num
      · norm_num
      · norm_num
    have ht : (if ws.length % 8 = 0 then
          xorWord (subWord (rotWord (ws.getD (ws.length - 1) [])))
            [rconT.getD (ws.length / 8 - 1) 0, 0, 0, 0]
        else if ws.length % 8 = 4 then subWord (ws.getD (ws.length - 1) [])
        else ws.getD (ws.length - 1) []).length = 4 ∧
        bytesOk (if ws.length % 8 = 0 then
          xorWord (subWord (rotWord (ws.getD (ws.length - 1) [])))
            [rconT.getD (ws.length / 8 - 1) 0, 0, 0, 0]
        else if ws.length % 8 = 4 then subWord (ws.getD (ws.length - 1) [])
        else ws.getD (ws.length - 1) []) := by
      split
      · exact wordOk_xorWord (wordOk_subWord (wordOk_rotWord hprev).1) hrcon
      · split
        · exact wordOk_subWord hprev.1
        · exact hprev
    have h8 := getD_wordsOk_of_lt h (show ws.length - 8 < ws.length by omega)
    exact wordOk_xorWord h8 ht

theorem length_ksNext (ws : List (List Nat)) : (ksNext ws).length = ws.length + 1 := by
  unfold ksNext
  simp

theorem length_ksIter (f : Nat) : ∀ ws, (ksIter f ws).length = ws.length + f := by
  induction f with
  | zero => intro ws; rfl
  | succ f ih =>
    intro ws
    show (ksIter f (ksNext ws)).length = _
    rw [ih, length_ksNext]
    omega

theorem wordsOk_ksIter (f : Nat) : ∀ ws, wordsOk ws → 1 ≤ ws.length →
    wordsOk (ksIter f ws) := by
  induction f with
  | zero => intro ws h _; exact h
  | succ f ih =>
    intro ws h hlen
    refine ih _ (wordsOk_ksNext h hlen) ?_
    rw [length_ksNext]
    omega

theorem length_initWords (key : List Nat) : (initWords key).length = 8 := by
  simp [initWords]

theorem wordsOk_initWords {key : List Nat} (hk : bytesOk key) :
    wordsOk (initWords key) := by
  intro w hw
  rcases List.mem_map.mp hw with ⟨i, _, rfl⟩
  refine ⟨rfl, ?_⟩
  intro x hx
  simp only [List.mem_cons, List.not_mem_nil, or_false] at hx
  rcases hx with rfl | rfl | rfl | rfl <;>
    exact getD_lt_of_bytesOk hk (by norm_num) _

theorem length_allWords (key : List Nat) : (allWords key).length = 60 := by
  rw [allWords, length_ksIter, length_initWords]

theorem wordsOk_allWords {key : List Nat} (hk : bytesOk key) :
    wordsOk (allWords key) :=
  wordsOk_ksIter 52 _ (wordsOk_initWords hk) (by rw [length_initWords]; omega)

theorem length_roundKeys (key : List Nat) : (roundKeys key).length = 15 := by
  simp [roundKeys]

theorem rkOk_roundKeys {key : List Nat} (hk : bytesOk key) : rkOk (roundKeys key) := by
  intro k hkmem
  rcases List.mem_map.mp hkmem with ⟨r, hr, rfl⟩
  have hw := wordsOk_allWords hk
  have hlen := length_allWords key
  have hr15 : r < 15 := List.mem_range.mp hr
  have q0 := getD_wordsOk_of_lt hw (show 4 * r < (allWords key).length by omega)
  have q1 := getD_wordsOk_of_lt hw (show 4 * r + 1 < (allWords key).length by omega)
  have q2 := getD_wordsOk_of_lt hw (show 4 * r + 2 < (allWords key).length by omega)
  have q3 := getD_wordsOk_of_lt hw (show 4 * r + 3 < (allWords key).length by omega)
  constructor
  · rw [List.length_append, List.length_append, List.length_append,
      q0.1, q1.1, q2.1, q3.1]
  · exact bytesOk_append (bytesOk_append (bytesOk_append q0.2 q1.2) q2.2) q3.2

theorem length_addRoundKey (s k : List Nat) : (addRoundKey s k).length = 16 :=
  length_mapRange16 _

theorem length_subBytes (s : List Nat) : (subBytes s).length = 16 :=
  length_mapRange16 _

theorem length_shiftRows (s : List Nat) : (shiftRows s).length = 16 :=
  length_mapRange16 _

theorem length_mixColumns (s : List Nat) : (mixColumns s).length = 16 :=
  length_mapRange16 _

theorem invRoundStep_aesRound {rk s : List Nat} (hs16 : s.length = 16)
    (hsok : bytesOk s) (_hrk : bytesOk rk) : invRoundStep rk (aesRound rk s) = s := by
  unfold invRoundStep aesRound
  rw [addRoundKey_inv rk (length_mixColumns _)]
  rw [invMixColumns_mixColumns (length_shiftRows _)
    (bytesOk_shiftRows (bytesOk_subBytes s))]
  rw [invShiftRows_shiftRows (length_subBytes _)]
  exact invSubBytes_subBytes hs16 hsok

theorem aesRound_ok {rk s : List Nat} (hrk : bytesOk rk) (_hs : bytesOk s) :
    (aesRound rk s).length = 16 ∧ bytesOk (aesRound rk s) :=
  ⟨length_addRoundKey _ _,
    bytesOk_addRoundKey (bytesOk_mixWith _ (bytesOk_shiftRows (bytesOk_subBytes s))) hrk⟩

theorem aesDecMid_append (s : List Nat) (l1 l2 : List (List Nat)) :
    aesDecMid s (l1 ++ l2) = aesDecMid (aesDecMid s l1) l2 := by
  induction l1 generalizing s with
  | nil => rfl
  | cons rk rest ih =>
    simp only [List.cons_append, aesDecMid]
    exact ih _

theorem aesMidRounds_ok {mid : List (List Nat)} (hmid : ∀ k ∈ mid, bytesOk k) :
    ∀ s, s.length = 16 → bytesOk s →
    (aesMidRounds s mid).length = 16 ∧ bytesOk (aesMidRounds s mid) := by
  induction mid with
  | nil => intro s h16 hok; exact ⟨h16, hok⟩
  | cons rk rest ih =>
    intro s h16 hok
    have hrk : bytesOk rk := hmid rk (List.mem_cons_self rk rest)
    have hrest : ∀ k ∈ rest, bytesOk k := fun k hk => hmid k (List.mem_cons_of_mem _ hk)
    exact ih hrest (aesRound rk s) (aesRound_ok hrk hok).1 (aesRound_ok hrk hok).2

theorem aesDecMid_aesMidRounds {mid : List (List Nat)} (hmid : ∀ k ∈ mid, bytesOk k) :
    ∀ s, s.length = 16 → bytesOk s →
    aesDecMid (aesMidRounds s mid) mid.reverse = s := by
  induction mid with
  | nil => intro s _ _; rfl
  | cons rk rest ih =>
    intro s h16 hok
    have hrk : bytesOk rk := hmid rk (List.mem_cons_self rk rest)
    have hrest : ∀ k ∈ rest, bytesOk k := fun k hk => hmid k (List.mem_cons_of_mem _ hk)
    simp only [aesMidRounds, List.reverse_cons]
    rw [aesDecMid_append]
    rw [ih hrest (aesRound rk s) (aesRound_ok hrk hok).1 (aesRound_ok hrk hok).2]
    show invRoundStep rk (aesRound rk s) = s
    exact invRoundStep_aesRound h16 hok hrk

theorem aesDecryptBlockK_aesEncryptBlockK {rk0 rkF b : List Nat}
    {mid : List (List Nat)} (h0 : bytesOk rk0) (_hF : bytesOk rkF)
    (hmid : ∀ k ∈ mid, bytesOk k) (hb16 : b.length = 16) (hbok : bytesOk b) :
    aesDecryptBlockK rk0 mid rkF (aesEncryptBlockK rk0 mid rkF b) = b := by
  have hM := aesMidRounds_ok hmid (addRoundKey b rk0) (length_addRoundKey _ _)
    (bytesOk_addRoundKey hbok h0)
  unfold aesDecryptBlockK aesEncryptBlockK aesFinalRound
  rw [addRoundKey_inv rkF (length_shiftRows _)]
  rw [invShiftRows_shiftRows (length_subBytes _)]
  rw [invSubBytes_subBytes hM.1 hM.2]
  rw [aesDecMid_aesMidRounds hmid _ (length_addRoundKey _ _)
    (bytesOk_addRoundKey hbok h0)]
  exact addRoundKey_inv rk0 hb16

theorem aesDecryptBlock_aesEncryptBlock {key b : List Nat} (hk : bytesOk key)
    (hb16 : b.length = 16) (hbok : bytesOk b) :
    aesDecryptBlock key (aesEncryptBlock key b) = b := by
  have hrk := rkOk_roundKeys hk
  have hlen := length_roundKeys key
  have h0 : bytesOk ((roundKeys key).getD 0 []) := by
    rw [List.getD_eq_getElem _ [] (by omega)]
    exact (hrk _ (List.getElem_mem _)).2
  have hF : bytesOk ((roundKeys key).getD 14 []) := by
    rw [List.getD_eq_getElem _ [] (by omega)]
    exact (hrk _ (List.getElem_mem _)).2
  have hmid : ∀ k ∈ rkMid key, bytesOk k := by
    intro k hkm
    have h1 : k ∈ (roundKeys key).drop 1 := List.dropLast_subset _ hkm
    have h2 : k ∈ roundKeys key := List.drop_subset _ _ h1
    exact (hrk k h2).2
  exact aesDecryptBlockK_aesEncryptBlockK h0 hF hmid hb16 hbok

theorem aesEncryptBlock_ok {key : List Nat} (hk : bytesOk key) (b : List Nat) :
    (aesEncryptBlock key b).length = 16 ∧ bytesOk (aesEncryptBlock key b) := by
  have hrk := rkOk_roundKeys hk
  have hlen := length_roundKeys key
  have hF : bytesOk ((roundKeys key).getD 14 []) := by
    rw [List.getD_eq_getElem _ [] (by omega)]
    exact (hrk _ (List.getElem_mem _)).2
  exact ⟨length_addRoundKey _ _,
    bytesOk_addRoundKey (bytesOk_shiftRows (bytesOk_subBytes _)) hF⟩

theorem cbcDecBlocks_cbcEncBlocks {key : List Nat} (hk : bytesOk key) :
    ∀ (bs : List (List Nat)) (iv : List Nat),
    (∀ b ∈ bs, b.length = 16 ∧ bytesOk b) → bytesOk iv →
    cbcDecBlocks key iv (cbcEncBlocks key iv bs) = bs := by
  intro bs
  induction bs with
  | nil => intro iv _ _; rfl
  | cons b rest ih =>
    intro iv hbs hiv
    have hb := hbs b (List.mem_cons_self b rest)
    have hrest : ∀ x ∈ rest, x.length = 16 ∧ bytesOk x :=
      fun x hx => hbs x (List.mem_cons_of_mem _ hx)
    simp only [cbcEncBlocks, cbcDecBlocks]
    rw [aesDecryptBlock_aesEncryptBlock (b := xorBlock b iv) hk
      (length_addRoundKey b iv) (bytesOk_addRoundKey hb.2 hiv)]
    rw [show xorBlock (xorBlock b iv) iv = b from addRoundKey_inv iv hb.1]
    rw [ih _ hrest (aesEncryptBlock_ok hk _).2]

theorem length_padBytes (b : List Nat) :
    (padBytes b).length = b.length + (16 - b.length % 16) := by
  simp [padBytes]

theorem padBytes_mod (b : List Nat) : (padBytes b).length % 16 = 0 := by
  rw [length_padBytes]
  omega

theorem padBytes_pos (b : List Nat) : 0 < (padBytes b).length := by
  rw [length_padBytes]
  omega

theorem bytesOk_padBytes {b : List Nat} (hb : bytesOk b) : bytesOk (padBytes b) := by
  refine bytesOk_append hb ?_
  intro x hx
  rw [List.eq_of_mem_replicate hx]
  omega

theorem unpadBytes_padBytes (b : List Nat) : unpadBytes (padBytes b) = some b := by
  have hm : 1 ≤ 16 - b.length % 16 ∧ 16 - b.length % 16 ≤ 16 := by omega
  have hlen := length_padBytes b
  have hdrop : (padBytes b).drop b.length =
      List.replicate (16 - b.length % 16) (16 - b.length % 16) := by
    rw [padBytes]
    exact List.drop_left b _
  have htake : (padBytes b).take b.length = b := by
    rw [padBytes]
    exact List.take_left b _
  have hlast : (padBytes b).getD ((padBytes b).length - 1) 0 = 16 - b.length % 16 := by
    have hpb : padBytes b =
        b ++ List.replicate (16 - b.length % 16) (16 - b.length % 16) := rfl
    rw [hpb, List.length_append, List.length_replicate]
    have hidx : b.length + (16 - b.length % 16) - 1 <
        (b ++ List.replicate (16 - b.length % 16) (16 - b.length % 16)).length := by
      rw [List.length_append, List.length_replicate]
      omega
    rw [List.getD_eq_getElem _ 0 hidx]
    rw [List.getElem_append_right (by omega)]
    rw [List.getElem_replicate]
  simp only [unpadBytes]
  rw [hlast]
  rw [if_pos]
  · rw [show (padBytes b).length - (16 - b.length % 16) = b.length by omega, htake]
  · refine ⟨hm.1, hm.2, by omega, ?_⟩
    rw [show (padBytes b).length - (16 - b.length % 16) = b.length by omega, hdrop]

theorem chunkAux_congr : ∀ f1 f2 l, l.length ≤ f1 → l.length ≤ f2 →
    chunkAux f1 l = chunkAux f2 l := by
  intro f1
  induction f1 with
  | zero =>
    intro f2 l h1 _
    have : l = [] := List.eq_nil_of_length_eq_zero (by omega)
    subst this
    cases f2 <;> rfl
  | succ f1 ih =>
    intro f2 l h1 h2
    rcases l with _ | ⟨a, t⟩
    · cases f2 <;> rfl
    · rcases f2 with _ | f2
      · simp at h2
      · simp only [chunkAux]
        congr 1
        refine ih f2 _ ?_ ?_ <;>
          · rw [List.length_drop]
            simp only [List.length_cons] at h1 h2 ⊢
            omega

theorem chunk16_cons {b : List Nat} (hb : b.length = 16) (rest : List Nat) :
    chunk16 (b ++ rest) = b :: chunk16 rest := by
  rcases b with _ | ⟨a, t⟩
  · simp at hb
  · have hlen : ((a :: t) ++ rest).length = 15 + rest.length + 1 := by
      simp only [List.length_append, List.length_cons]
      simp only [List.length_cons] at hb
      omega
    rw [chunk16, hlen]
    simp only [List.cons_append, chunkAux, List.append_eq]
    have h1 : (a :: (t ++ rest)).take 16 = a :: t := by
      rw [show (16 : Nat) = (a :: t).length from hb.symm, ← List.cons_append]
      exact List.take_left _ _
    have h2 : (a :: (t ++ rest)).drop 16 = rest := by
      rw [show (16 : Nat) = (a :: t).length from hb.symm, ← List.cons_append]
      exact List.drop_left _ _
    rw [h1, h2]
    congr 1
    exact chunkAux_congr _ _ rest (by omega) (le_refl _)

theorem chunk16_flatten : ∀ bs : List (List Nat), (∀ b ∈ bs, b.length = 16) →
    chunk16 bs.flatten = bs := by
  intro bs
  induction bs with
  | nil => intro _; rfl
  | cons b rest ih =>
    intro h
    rw [List.flatten_cons, chunk16_cons (h b (List.mem_cons_self b rest))]
    rw [ih fun x hx => h x (List.mem_cons_of_mem _ hx)]

theorem chunk16_spec : ∀ (n : Nat) (l : List Nat), l.length = 16 * n →
    (∀ c ∈ chunk16 l, c.length = 16) ∧ (chunk16 l).flatten = l ∧
      (chunk16 l).length = n := by
  intro n
  induction n with
  | zero =>
    intro l hl
    have : l = [] := List.eq_nil_of_length_eq_zero (by omega)
    subst this
    exact ⟨fun c hc => absurd hc (List.not_mem_nil c), rfl, rfl⟩
  | succ n ih =>
    intro l hl
    have hsplit := List.take_append_drop 16 l
    have htl : (l.take 16).length = 16 := by
      rw [List.length_take]
      omega
    have hdl : (l.drop 16).length = 16 * n := by
      rw [List.length_drop]
      omega
    obtain ⟨ih1, ih2, ih3⟩ := ih _ hdl
    rw [← hsplit, chunk16_cons htl]
    refine ⟨?_, ?_, ?_⟩
    · intro c hc
      rcases List.mem_cons.mp hc with rfl | hc
      · exact htl
      · exact ih1 c hc
    · rw [List.flatten_cons, ih2]
    · simp only [List.length_cons, ih3]

theorem b64Val_b64Char : ∀ v < 64, b64Val (b64Char v) = some v := by decide

theorem b64Char_ne_eq : ∀ v < 64, b64Char v ≠ '=' := by decide

theorem b64Scan_cons_valid {v : Nat} (hv : v < 64) (rest : List Char) :
    b64Scan (b64Char v :: rest) = v :: b64Scan rest := by
  simp only [b64Scan, if_neg (b64Char_ne_eq v hv), b64Val_b64Char v hv]

theorem b64Scan_enc_aligned : ∀ (n : Nat) (l : List Nat) (tail : List Char),
    l.length ≤ n → l.length % 3 = 0 → bytesOk l →
    b64Scan (b64EncGroups l ++ tail) = b64Vals l ++ b64Scan tail := by
  intro n
  induction n with
  | zero =>
    intro l tail h1 _ _
    have : l = [] := List.eq_nil_of_length_eq_zero (by omega)
    subst this
    rfl
  | succ n ih =>
    intro l tail h1 h3 hok
    rcases l with _ | ⟨b0, l⟩
    · rfl
    rcases l with _ | ⟨b1, l⟩
    · simp only [List.length_cons, List.length_nil] at h3
      omega
    rcases l with _ | ⟨b2, rest⟩
    · simp only [List.length_cons, List.length_nil] at h3
      omega
    have hb0 : b0 < 256 := hok b0 (by simp)
    have hb1 : b1 < 256 := hok b1 (by simp)
    have hb2 : b2 < 256 := hok b2 (by simp)
    have hrest : bytesOk rest := fun x hx => hok x (by simp [hx])
    simp only [b64EncGroups, List.cons_append]
    rw [b64Scan_cons_valid (by omega), b64Scan_cons_valid (by omega),
      b64Scan_cons_valid (by omega), b64Scan_cons_valid (by omega)]
    rw [ih rest tail (by simp only [List.length_cons] at h1; omega)
      (by simp only [List.length_cons] at h3; omega) hrest]
    simp only [b64Vals, List.cons_append]

theorem b64Scan_enc_unaligned : ∀ (n : Nat) (l : List Nat) (tail : List Char),
    l.length ≤ n → l.length % 3 ≠ 0 → bytesOk l →
    b64Scan (b64EncGroups l ++ tail) = b64Vals l := by
  intro n
  induction n with
  | zero =>
    intro l tail h1 h3 _
    have : l = [] := List.eq_nil_of_length_eq_zero (by omega)
    subst this
    simp at h3
  | succ n ih =>
    intro l tail h1 h3 hok
    rcases l with _ | ⟨b0, l⟩
    · simp at h3
    rcases l with _ | ⟨b1, l⟩
    · have hb0 : b0 < 256 := hok b0 (by simp)
      simp only [b64EncGroups, List.cons_append]
      rw [b64Scan_cons_valid (by omega), b64Scan_cons_valid (by omega)]
      simp [b64Scan, b64Vals]
    rcases l with _ | ⟨b2, rest⟩
    · have hb0 : b0 < 256 := hok b0 (by simp)
      have hb1 : b1 < 256 := hok b1 (by simp)
      simp only [b64EncGroups, List.cons_append]
      rw [b64Scan_cons_valid (by omega), b64Scan_cons_valid (by omega),
        b64Scan_cons_valid (by omega)]
      simp [b64Scan, b64Vals]
    have hb0 : b0 < 256 := hok b0 (by simp)
    have hb1 : b1 < 256 := hok b1 (by simp)
    have hb2 : b2 < 256 := hok b2 (by simp)
    have hrest : bytesOk rest := fun x hx => hok x (by simp [hx])
    simp only [b64EncGroups, List.cons_append]
    rw [b64Scan_cons_valid (by omega), b64Scan_cons_valid (by omega),
      b64Scan_cons_valid (by omega), b64Scan_cons_valid (by omega)]
    rw [ih rest tail (by simp only [List.length_cons] at h1; omega)
      (by simp only [List.length_cons] at h3; omega) hrest]
    simp only [b64Vals]

theorem b64DecGroups_vals : ∀ (n : Nat) (l : List Nat), l.length ≤ n →
    bytesOk l → b64DecGroups (b64Vals l) = l := by
  intro n
  induction n with
  | zero =>
    intro l h1 _
    have : l = [] := List.eq_nil_of_length_eq_zero (by omega)
    subst this
    rfl
  | succ n ih =>
    intro l h1 hok
    rcases l with _ | ⟨b0, l⟩
    · rfl
    rcases l with _ | ⟨b1, l⟩
    · have hb0 : b0 < 256 := hok b0 (by simp)
      simp only [b64Vals, b64DecGroups, List.cons.injEq, and_true]
      omega
    rcases l with _ | ⟨b2, rest⟩
    · have hb0 : b0 < 256 := hok b0 (by simp)
      have hb1 : b1 < 256 := hok b1 (by simp)
      simp only [b64Vals, b64DecGroups, List.cons.injEq, and_true]
      constructor
      · omega
      · omega
    have hb0 : b0 < 256 := hok b0 (by simp)
    have hb1 : b1 < 256 := hok b1 (by simp)
    have hb2 : b2 < 256 := hok b2 (by simp)
    have hrest : bytesOk rest := fun x hx => hok x (by simp [hx])
    simp only [b64Vals, b64DecGroups, List.cons.injEq]
    refine ⟨by omega, by omega, by omega, ?_⟩
    exact ih rest (by simp only [List.length_cons] at h1; omega) hrest

theorem b64DecGroups_append : ∀ (n : Nat) (v1 v2 : List Nat), v1.length ≤ n →
    v1.length % 4 = 0 →
    b64DecGroups (v1 ++ v2) = b64DecGroups v1 ++ b64DecGroups v2 := by
  intro n
  induction n with
  | zero =>
    intro v1 v2 h1 _
    have : v1 = [] := List.eq_nil_of_length_eq_zero (by omega)
    subst this
    rfl
  | succ n ih =>
    intro v1 v2 h1 h4
    rcases v1 with _ | ⟨a0, v1⟩
    · rfl
    rcases v1 with _ | ⟨a1, v1⟩
    · simp only [List.length_cons, List.length_nil] at h4
      omega
    rcases v1 with _ | ⟨a2, v1⟩
    · simp only [List.length_cons, List.length_nil] at h4
      omega
    rcases v1 with _ | ⟨a3, rest⟩
    · simp only [List.length_cons, List.length_nil] at h4
      omega
    simp only [List.cons_append, b64DecGroups, List.cons.injEq, true_and]
    exact ih rest v2 (by simp only [List.length_cons] at h1; omega)
      (by simp only [List.length_cons] at h4; omega)

theorem length_b64Vals_aligned : ∀ (n : Nat) (l : List Nat), l.length ≤ n →
    l.length % 3 = 0 → (b64Vals l).length % 4 = 0 := by
  intro n
  induction n with
  | zero =>
    intro l h1 _
    have : l = [] := List.eq_nil_of_length_eq_zero (by omega)
    subst this
    rfl
  | succ n ih =>
    intro l h1 h3
    rcases l with _ | ⟨b0, l⟩
    · rfl
    rcases l with _ | ⟨b1, l⟩
    · simp only [List.length_cons, List.length_nil] at h3
      omega
    rcases l with _ | ⟨b2, rest⟩
    · simp only [List.length_cons, List.length_nil] at h3
      omega
    simp only [b64Vals, List.length_cons]
    have := ih rest (by simp only [List.length_cons] at h1; omega)
      (by simp only [List.length_cons] at h3; omega)
    omega

/-- Decoding inverts encoding on byte strings. -/
theorem nodeB64Dec_enc {l : List Nat} (hok : bytesOk l) :
    nodeB64Dec (b64EncGroups l) = l := by
  unfold nodeB64Dec
  by_cases h3 : l.length % 3 = 0
  · rw [← List.append_nil (b64EncGroups l),
      b64Scan_enc_aligned l.length l [] (le_refl _) h3 hok]
    show b64DecGroups (b64Vals l ++ []) = l
    rw [List.append_nil]
    exact b64DecGroups_vals l.length l (le_refl _) hok
  · rw [← List.append_nil (b64EncGroups l),
      b64Scan_enc_unaligned l.length l [] (le_refl _) h3 hok]
    exact b64DecGroups_vals l.length l (le_refl _) hok

theorem b64Char_ne_colon (v : Nat) : b64Char v ≠ ':' := by
  rcases Nat.lt_or_ge v 64 with hv | hv
  · revert hv
    revert v
    decide
  · unfold b64Char
    rw [List.getD_eq_default _ _ (by simp [b64Alpha]; omega)]
    decide

theorem b64EncGroups_no_colon : ∀ (n : Nat) (l : List Nat), l.length ≤ n →
    ∀ c ∈ b64EncGroups l, c ≠ ':' := by
  intro n
  induction n with
  | zero =>
    intro l h1
    have : l = [] := List.eq_nil_of_length_eq_zero (by omega)
    subst this
    intro c hc
    cases hc
  | succ n ih =>
    intro l h1 c hc
    rcases l with _ | ⟨b0, l⟩
    · cases hc
    rcases l with _ | ⟨b1, l⟩
    · simp only [b64EncGroups, List.mem_cons, List.not_mem_nil, or_false] at hc
      rcases hc with rfl | rfl | rfl | rfl
      · exact b64Char_ne_colon _
      · exact b64Char_ne_colon _
      · decide
      · decide
    rcases l with _ | ⟨b2, rest⟩
    · simp only [b64EncGroups, List.mem_cons, List.not_mem_nil, or_false] at hc
      rcases hc with rfl | rfl | rfl | rfl
      · exact b64Char_ne_colon _
      · exact b64Char_ne_colon _
      · exact b64Char_ne_colon _
      · decide
    simp only [b64EncGroups, List.mem_cons] at hc
    rcases hc with rfl | rfl | rfl | rfl | hc
    · exact b64Char_ne_colon _
    · exact b64Char_ne_colon _
    · exact b64Char_ne_colon _
    · exact b64Char_ne_colon _
    · exact ih rest (by simp only [List.length_cons] at h1; omega) c hc

theorem utf8Cont2_le (b : Nat) : ∀ l, (utf8Cont2 b l).2.length ≤ l.length := by
  intro l
  rcases l with _ | ⟨b1, r1⟩
  · simp [utf8Cont2]
  · simp only [utf8Cont2]
    split_ifs <;> simp

theorem utf8Cont3b_le (v : Nat) : ∀ l, (utf8Cont3b v l).2.length ≤ l.length := by
  intro l
  rcases l with _ | ⟨b2, r2⟩
  · simp [utf8Cont3b]
  · simp only [utf8Cont3b]
    split_ifs <;> simp

theorem utf8Cont3_le (b : Nat) : ∀ l, (utf8Cont3 b l).2.length ≤ l.length := by
  intro l
  rcases l with _ | ⟨b1, r1⟩
  · simp [utf8Cont3]
  · simp only [utf8Cont3]
    split_ifs
    all_goals first
      | exact le_trans (utf8Cont3b_le _ r1) (by simp)
      | simp

theorem utf8Cont4c_le (v : Nat) : ∀ l, (utf8Cont4c v l).2.length ≤ l.length := by
  intro l
  rcases l with _ | ⟨b3, r3⟩
  · simp [utf8Cont4c]
  · simp only [utf8Cont4c]
    split_ifs <;> simp

theorem utf8Cont4b_le (v : Nat) : ∀ l, (utf8Cont4b v l).2.length ≤ l.length := by
  intro l
  rcases l with _ | ⟨b2, r2⟩
  · simp [utf8Cont4b]
  · simp only [utf8Cont4b]
    split_ifs
    all_goals first
      | exact le_trans (utf8Cont4c_le _ r2) (by simp)
      | simp

theorem utf8Cont4_le (b : Nat) : ∀ l, (utf8Cont4 b l).2.length ≤ l.length := by
  intro l
  rcases l with _ | ⟨b1, r1⟩
  · simp [utf8Cont4]
  · simp only [utf8Cont4]
    split_ifs
    all_goals first
      | exact le_trans (utf8Cont4b_le _ r1) (by simp)
      | simp

theorem utf8Step_shorter : ∀ l : List Nat, l ≠ [] →
    (utf8Step l).2.length < l.length := by
  intro l hl
  rcases l with _ | ⟨b, rest⟩
  · exact absurd rfl hl
  · simp only [utf8Step, List.length_cons]
    split_ifs
    · exact Nat.lt_succ_of_le (le_refl _)
    · exact Nat.lt_succ_of_le (le_refl _)
    · exact Nat.lt_succ_of_le (utf8Cont2_le b rest)
    · exact Nat.lt_succ_of_le (utf8Cont3_le b rest)
    · exact Nat.lt_succ_of_le (utf8Cont4_le b rest)
    · exact Nat.lt_succ_of_le (le_refl _)

theorem utf8DecodeAux_congr : ∀ (f1 f2 : Nat) (l : List Nat), l.length ≤ f1 →
    l.length ≤ f2 → utf8DecodeAux f1 l = utf8DecodeAux f2 l := by
  intro f1
  induction f1 with
  | zero =>
    intro f2 l h1 _
    have : l = [] := List.eq_nil_of_length_eq_zero (by omega)
    subst this
    cases f2 <;> rfl
  | succ f1 ih =>
    intro f2 l h1 h2
    rcases l with _ | ⟨b, rest⟩
    · cases f2 <;> rfl
    · rcases f2 with _ | f2
      · simp at h2
      · simp only [utf8DecodeAux, if_neg (List.cons_ne_nil b rest)]
        congr 1
        have hlt := utf8Step_shorter (b :: rest) (List.cons_ne_nil b rest)
        simp only [List.length_cons] at h1 h2 hlt
        exact ih f2 _ (by omega) (by omega)

theorem utf8EncodeChar_ne_nil (c : Nat) : utf8EncodeChar c ≠ [] := by
  unfold utf8EncodeChar
  split_ifs <;> simp

theorem utf8Step_enc {c : Nat} (hc : c < 0x110000)
    (hs : ¬(0xD800 ≤ c ∧ c < 0xE000)) (rest : List Nat) :
    utf8Step (utf8EncodeChar c ++ rest) = (Char.ofNat c, rest) := by
  unfold utf8EncodeChar
  by_cases h1 : c < 0x80
  · rw [if_pos h1]
    show utf8Step (c :: rest) = _
    simp only [utf8Step]
    rw [if_pos h1]
  · rw [if_neg h1]
    by_cases h2 : c < 0x800
    · rw [if_pos h2]
      show utf8Step ((0xC0 + c / 64) :: (0x80 + c % 64) :: rest) = _
      simp only [utf8Step]
      rw [if_neg (by omega), if_neg (by omega), if_pos (by omega)]
      simp only [utf8Cont2]
      rw [if_pos (by omega : 0x80 ≤ 0x80 + c % 64 ∧ 0x80 + c % 64 < 0xC0)]
      rw [show (0xC0 + c / 64 - 0xC0) * 64 + (0x80 + c % 64 - 0x80) = c from by omega]
    · rw [if_neg h2]
      by_cases h3 : c < 0x10000
      · rw [if_pos h3]
        show utf8Step ((0xE0 + c / 4096) :: (0x80 + c / 64 % 64) ::
          (0x80 + c % 64) :: rest) = _
        simp only [utf8Step]
        rw [if_neg (by omega), if_neg (by omega), if_neg (by omega),
          if_pos (by omega)]
        simp only [utf8Cont3]
        rw [if_pos (by split_ifs <;> omega :
          (if 0xE0 + c / 4096 = 0xE0 then 0xA0 else 0x80) ≤ 0x80 + c / 64 % 64 ∧
            0x80 + c / 64 % 64 < (if 0xE0 + c / 4096 = 0xED then 0xA0 else 0xC0))]
        simp only [utf8Cont3b]
        rw [if_pos (by omega : 0x80 ≤ 0x80 + c % 64 ∧ 0x80 + c % 64 < 0xC0)]
        rw [show ((0xE0 + c / 4096 - 0xE0) * 64 + (0x80 + c / 64 % 64 - 0x80)) * 64 +
          (0x80 + c % 64 - 0x80) = c from by omega]
      · rw [if_neg h3]
        show utf8Step ((0xF0 + c / 262144) :: (0x80 + c / 4096 % 64) ::
          (0x80 + c / 64 % 64) :: (0x80 + c % 64) :: rest) = _
        simp only [utf8Step]
        rw [if_neg (by omega), if_neg (by omega), if_neg (by omega),
          if_neg (by omega), if_pos (by omega)]
        simp only [utf8Cont4]
        rw [if_pos (by split_ifs <;> omega :
          (if 0xF0 + c / 262144 = 0xF0 then 0x90 else 0x80) ≤ 0x80 + c / 4096 % 64 ∧
            0x80 + c / 4096 % 64 < (if 0xF0 + c / 262144 = 0xF4 then 0x90 else 0xC0))]
        simp only [utf8Cont4b]
        rw [if_pos (by omega : 0x80 ≤ 0x80 + c / 64 % 64 ∧ 0x80 + c / 64 % 64 < 0xC0)]
        simp only [utf8Cont4c]
        rw [if_pos (by omega : 0x80 ≤ 0x80 + c % 64 ∧ 0x80 + c % 64 < 0xC0)]
        rw [show (((0xF0 + c / 262144 - 0xF0) * 64 + (0x80 + c / 4096 % 64 - 0x80)) * 64 +
          (0x80 + c / 64 % 64 - 0x80)) * 64 + (0x80 + c % 64 - 0x80) = c from by omega]

theorem char_toNat_lt (c : Char) : c.toNat < 0x110000 := by
  show c.val.toNat < 0x110000
  rcases c.valid with h | h
  · omega
  · exact h.2

theorem char_toNat_not_surrogate (c : Char) :
    ¬(0xD800 ≤ c.toNat ∧ c.toNat < 0xE000) := by
  show ¬(0xD800 ≤ c.val.toNat ∧ c.val.toNat < 0xE000)
  rcases c.valid with h | h
  · omega
  · have h1 := h.1
    omega

theorem utf8DecodeAux_enc : ∀ (cs : List Char) (f : Nat),
    ((cs.map fun c => utf8EncodeChar c.toNat).flatten).length ≤ f →
    utf8DecodeAux f (cs.map fun c => utf8EncodeChar c.toNat).flatten = cs := by
  intro cs
  induction cs with
  | nil =>
    intro f _
    cases f <;> rfl
  | cons c cs ih =>
    intro f hf
    simp only [List.map_cons, List.flatten_cons] at hf ⊢
    have hne : utf8EncodeChar c.toNat ++ (cs.map fun c => utf8EncodeChar c.toNat).flatten ≠ [] := by
      intro h
      exact utf8EncodeChar_ne_nil c.toNat (List.append_eq_nil.mp h).1
    rcases f with _ | f
    · exact absurd (List.eq_nil_of_length_eq_zero (by omega)) hne
    · simp only [utf8DecodeAux, if_neg hne]
      rw [utf8Step_enc (char_toNat_lt c) (char_toNat_not_surrogate c)]
      simp only [Char.ofNat_toNat]
      congr 1
      refine ih f ?_
      have h1 : 1 ≤ (utf8EncodeChar c.toNat).length := by
        rcases Nat.eq_zero_or_pos (utf8EncodeChar c.toNat).length with h | h
        · exact absurd (List.eq_nil_of_length_eq_zero h) (utf8EncodeChar_ne_nil c.toNat)
        · omega
      rw [List.length_append] at hf
      omega

/-- Decoding inverts encoding for every Lean string (all scalar values). -/
theorem utf8Decode_utf8Encode (s : String) : utf8Decode (utf8Encode s) = s := by
  show String.mk (utf8DecodeAux (utf8Encode s).length (utf8Encode s)) = s
  rw [show utf8Encode s = (s.data.map fun c => utf8EncodeChar c.toNat).flatten from rfl]
  rw [utf8DecodeAux_enc s.data _ (le_refl _)]

theorem bytesOk_utf8Encode (s : String) : bytesOk (utf8Encode s) := by
  intro b hb
  unfold utf8Encode at hb
  rcases List.mem_flatten.mp hb with ⟨chunk, hchunk, hbc⟩
  rcases List.mem_map.mp hchunk with ⟨c, _, rfl⟩
  have hv := char_toNat_lt c
  unfold utf8EncodeChar at hbc
  split_ifs at hbc with h1 h2 h3
  · simp only [List.mem_cons, List.not_mem_nil, or_false] at hbc
    subst hbc
    omega
  · simp only [List.mem_cons, List.not_mem_nil, or_false] at hbc
    rcases hbc with rfl | rfl <;> omega
  · simp only [List.mem_cons, List.not_mem_nil, or_false] at hbc
    rcases hbc with rfl | rfl | rfl <;> omega
  · simp only [List.mem_cons, List.not_mem_nil, or_false] at hbc
    rcases hbc with rfl | rfl | rfl | rfl <;> omega

theorem splitColon_ne_nil (l : List Char) : splitColon l ≠ [] := by
  induction l with
  | nil => simp [splitColon]
  | cons c rest _ =>
    simp only [splitColon]
    split
    · simp
    · split <;> simp

theorem splitColon_no_colon : ∀ {l : List Char}, ':' ∉ l → splitColon l = [l] := by
  intro l
  induction l with
  | nil => intro _; rfl
  | cons c t ih =>
    intro h
    have hc : ¬(c = ':') := by
      intro hcc
      exact h (by rw [← hcc]; exact List.mem_cons_self c t)
    have ht : ':' ∉ t := fun hm => h (List.mem_cons_of_mem _ hm)
    simp only [splitColon, if_neg hc, ih ht]

theorem splitColon_append {a : List Char} (ha : ':' ∉ a) (rest : List Char) :
    splitColon (a ++ ':' :: rest) = a :: splitColon rest := by
  induction a with
  | nil => simp [splitColon]
  | cons c t ih =>
    have hc : ¬(c = ':') := by
      intro hcc
      exact ha (by rw [← hcc]; exact List.mem_cons_self c t)
    have ht : ':' ∉ t := fun hm => ha (List.mem_cons_of_mem _ hm)
    simp only [List.cons_append, splitColon, if_neg hc, List.append_eq, ih ht]

/-! ## Evaluation lemmas for `decrypt` -/
/-- Function `decrypt` depends only on the decoded first two segments and on whether a
second segment exists at all. -/
theorem decrypt_depends (key : String) {p1 p2 : String}
    (h0 : nodeB64Dec ((splitColon p1.data).getD 0 []) =
      nodeB64Dec ((splitColon p2.data).getD 0 []))
    (h1 : nodeB64Dec ((splitColon p1.data).getD 1 []) =
      nodeB64Dec ((splitColon p2.data).getD 1 []))
    (h2 : (splitColon p1.data).length < 2 ↔ (splitColon p2.data).length < 2) :
    decrypt key p1 = decrypt key p2 := by
  simp only [decrypt]
  rw [h0, h1]
  by_cases hA : (nodeB64Dec ((splitColon p2.data).getD 0 [])).length ≠ 16
  · simp only [if_pos hA]
  · simp only [if_neg hA]
    by_cases hB : (utf8Encode key).length ≠ 32
    · simp only [if_pos hB]
    · simp only [if_neg hB]
      by_cases hC : (splitColon p1.data).length < 2
      · simp only [if_pos hC, if_pos (h2.mp hC)]
      · simp only [if_neg hC, if_neg (fun hx => hC (h2.mpr hx))]

/-- Evaluation of `decrypt` on a well-formed two-segment token with a valid
IV, a valid key and a whole-block ciphertext. -/
theorem decrypt_wellformed (key : String) {ivSeg ctSeg : List Char}
    (hivSeg : ':' ∉ ivSeg) (hctSeg : ':' ∉ ctSeg)
    (hivlen : (nodeB64Dec ivSeg).length = 16)
    (hklen : (utf8Encode key).length = 32)
    (hctlen : (nodeB64Dec ctSeg).length % 16 = 0)
    (hctnz : (nodeB64Dec ctSeg).length ≠ 0) :
    decrypt key (String.mk (ivSeg ++ ':' :: ctSeg)) =
      match unpadBytes (cbcDecBytes (utf8Encode key) (nodeB64Dec ivSeg)
        (nodeB64Dec ctSeg)) with
      | none => .error .badDecrypt
      | some pb => .ok (utf8Decode pb) := by
  have hs : splitColon (String.mk (ivSeg ++ ':' :: ctSeg)).data = [ivSeg, ctSeg] := by
    show splitColon (ivSeg ++ ':' :: ctSeg) = _
    rw [splitColon_append hivSeg, splitColon_no_colon hctSeg]
  simp only [decrypt, hs]
  simp only [List.getD_cons_zero, List.getD_cons_succ, List.length_cons,
    List.length_nil]
  rw [if_neg (by rw [hivlen]; omega), if_neg (by rw [hklen]; omega),
    if_neg (by omega), if_neg (by omega)]

/-! ## Facts about CBC over byte strings -/
theorem cbcEncBlocks_mem_ok {key : List Nat} (hk : bytesOk key) :
    ∀ (bs : List (List Nat)) (iv : List Nat), ∀ c ∈ cbcEncBlocks key iv bs,
    c.length = 16 ∧ bytesOk c := by
  intro bs
  induction bs with
  | nil => intro iv c hc; cases hc
  | cons b rest ih =>
    intro iv c hc
    simp only [cbcEncBlocks, List.mem_cons] at hc
    rcases hc with rfl | hc
    · exact aesEncryptBlock_ok hk _
    · exact ih _ c hc

theorem length_cbcEncBlocks (key : List Nat) :
    ∀ (bs : List (List Nat)) (iv : List Nat),
    (cbcEncBlocks key iv bs).length = bs.length := by
  intro bs
  induction bs with
  | nil => intro iv; rfl
  | cons b rest ih =>
    intro iv
    simp only [cbcEncBlocks, List.length_cons, ih]

theorem flatten_length_16 : ∀ bs : List (List Nat), (∀ b ∈ bs, b.length = 16) →
    bs.flatten.length = 16 * bs.length := by
  intro bs
  induction bs with
  | nil => intro _; rfl
  | cons b rest ih =>
    intro h
    rw [List.flatten_cons, List.length_append, h b (List.mem_cons_self b rest),
      ih fun x hx => h x (List.mem_cons_of_mem _ hx), List.length_cons]
    ring

theorem bytesOk_take {l : List Nat} (h : bytesOk l) (n : Nat) :
    bytesOk (l.take n) := fun x hx => h x (List.take_subset n l hx)

theorem bytesOk_drop {l : List Nat} (h : bytesOk l) (n : Nat) :
    bytesOk (l.drop n) := fun x hx => h x (List.drop_subset n l hx)

/-- The CBC ciphertext of a whole-block byte string is a whole-block byte
string of the same length. -/
theorem cbcEncBytes_ok {key : List Nat} (hk : bytesOk key) (iv : List Nat)
    {data : List Nat} (hlen : data.length % 16 = 0) :
    bytesOk (cbcEncBytes key iv data) ∧
      (cbcEncBytes key iv data).length = data.length := by
  obtain ⟨_, _, hCcount⟩ := chunk16_spec (data.length / 16) data (by omega)
  have hEncOk := cbcEncBlocks_mem_ok hk (chunk16 data) iv
  constructor
  · intro x hx
    rcases List.mem_flatten.mp hx with ⟨b, hb, hxb⟩
    exact (hEncOk b hb).2 x hxb
  · rw [cbcEncBytes, flatten_length_16 _ fun b hb => (hEncOk b hb).1,
      length_cbcEncBlocks, hCcount]
    omega

/-! ## The round trip.

`encrypt` emits `base64(iv) + ':' + base64(ciphertext)`.  The ciphertext
segment carries `=` padding only at its very end, so Node's decoder (which
stops at the first `=`) recovers the whole ciphertext, and CBC decryption
followed by PKCS#7 unpadding restores the plaintext. -/
theorem decrypt_encrypt {key : String} {iv : List Nat} {s : String}
    (hk : (utf8Encode key).length = 32) (hiv16 : iv.length = 16)
    (hivok : bytesOk iv)
    {t : String} (henc : encrypt key iv s = .ok t) : decrypt key t = .ok s := by
  have hKB : bytesOk (utf8Encode key) := bytesOk_utf8Encode key
  have hPB : bytesOk (utf8Encode s) := bytesOk_utf8Encode s
  have hPadOk : bytesOk (padBytes (utf8Encode s)) := bytesOk_padBytes hPB
  have hPadLen : (padBytes (utf8Encode s)).length =
      16 * ((utf8Encode s).length / 16 + 1) := by
    rw [length_padBytes]
    omega
  obtain ⟨hChunks16, hChunksFlat, hChunksCount⟩ :=
    chunk16_spec ((utf8Encode s).length / 16 + 1) (padBytes (utf8Encode s)) hPadLen
  have hChunksOk : ∀ b ∈ chunk16 (padBytes (utf8Encode s)), b.length = 16 ∧ bytesOk b := by
    intro b hb
    refine ⟨hChunks16 b hb, ?_⟩
    intro x hx
    refine hPadOk x ?_
    rw [← hChunksFlat]
    exact List.mem_flatten.mpr ⟨b, hb, hx⟩
  have hEncOk := cbcEncBlocks_mem_ok hKB (chunk16 (padBytes (utf8Encode s))) iv
  obtain ⟨hCtOk, hCtLen⟩ := cbcEncBytes_ok hKB iv (padBytes_mod (utf8Encode s))
  have hTok : t = String.mk (b64EncGroups iv ++ ':' ::
      b64EncGroups (cbcEncBytes (utf8Encode key) iv (padBytes (utf8Encode s)))) := by
    simp only [encrypt] at henc
    rw [if_neg (by omega), if_neg (by omega)] at henc
    exact (Except.ok.inj henc).symm
  have hIvSeg : ':' ∉ b64EncGroups iv :=
    fun hm => b64EncGroups_no_colon iv.length iv (le_refl _) ':' hm rfl
  have hCtSeg : ':' ∉ b64EncGroups (cbcEncBytes (utf8Encode key) iv
      (padBytes (utf8Encode s))) :=
    fun hm => b64EncGroups_no_colon _ _ (le_refl _) ':' hm rfl
  rw [hTok]
  rw [decrypt_wellformed key hIvSeg hCtSeg
    (by rw [nodeB64Dec_enc hivok]; exact hiv16) hk
    (by rw [nodeB64Dec_enc hCtOk, hCtLen, hPadLen]; omega)
    (by rw [nodeB64Dec_enc hCtOk, hCtLen, hPadLen]; omega)]
  rw [nodeB64Dec_enc hivok, nodeB64Dec_enc hCtOk]
  have hChunkCt : chunk16 (cbcEncBytes (utf8Encode key) iv
      (padBytes (utf8Encode s))) =
      cbcEncBlocks (utf8Encode key) iv (chunk16 (padBytes (utf8Encode s))) := by
    rw [cbcEncBytes]
    exact chunk16_flatten _ fun b hb => (hEncOk b hb).1
  rw [cbcDecBytes, hChunkCt,
    cbcDecBlocks_cbcEncBlocks hKB _ iv hChunksOk hivok, hChunksFlat,
    unpadBytes_padBytes]
  show Except.ok (utf8Decode (utf8Encode s)) = Except.ok s
  rw [utf8Decode_utf8Encode]

/-- Function `encrypt` succeeds on every plaintext once key and IV pass the
`createCipheriv` checks, and the token is `base64(iv) + ':' +
base64(ciphertext)`. -/
theorem encrypt_eq_ok {key : String} {iv : List Nat}
    (hk : (utf8Encode key).length = 32) (hiv : iv.length = 16) (s : String) :
    encrypt key iv s = .ok (String.mk (b64EncGroups iv ++ ':' ::
      b64EncGroups (cbcEncBytes (utf8Encode key) iv (padBytes (utf8Encode s))))) := by
  simp only [encrypt]
  rw [if_neg (by omega), if_neg (by omega)]

theorem colon_token_inj {a1 a2 r1 r2 : List Char}
    (h : a1 ++ ':' :: r1 = a2 ++ ':' :: r2) (h1 : ':' ∉ a1) (h2 : ':' ∉ a2) :
    a1 = a2 ∧ r1 = r2 := by
  have e := congrArg splitColon h
  rw [splitColon_append h1, splitColon_append h2] at e
  have hhead : a1 = a2 := (List.cons.injEq _ _ _ _).mp e |>.1
  subst hhead
  refine ⟨rfl, ?_⟩
  have h3 : (':' :: r1 : List Char) = ':' :: r2 := List.append_cancel_left h
  exact (List.cons.injEq _ _ _ _).mp h3 |>.2

theorem b64EncGroups_inj {l1 l2 : List Nat} (h1 : bytesOk l1) (h2 : bytesOk l2)
    (h : b64EncGroups l1 = b64EncGroups l2) : l1 = l2 := by
  have := congrArg nodeB64Dec h
  rwa [nodeB64Dec_enc h1, nodeB64Dec_enc h2] at this

theorem jsLength_empty : jsLength "" = 0 := rfl

/-! ## The claims -/
/-- Claim C2 (amended): a token with no `:` separator always makes `decrypt`
fail (with an invalid-IV, invalid-key or missing-argument error); segments
are NOT validated as base64 — non-alphabet characters are skipped. -/
theorem c2_missing_separator_fails (key p : String) (h : ':' ∉ p.data) :
    ∃ e, decrypt key p = .error e := by
  have hs := splitColon_no_colon (l := p.data) h
  simp only [decrypt, hs]
  simp only [List.getD_cons_zero, List.length_cons, List.length_nil]
  by_cases h1 : (nodeB64Dec p.data).length ≠ 16
  · exact ⟨_, by rw [if_pos h1]⟩
  · rw [if_neg h1]
    by_cases h2 : (utf8Encode key).length ≠ 32
    · exact ⟨_, by rw [if_pos h2]⟩
    · rw [if_neg h2, if_pos (by omega)]
      exact ⟨_, rfl⟩

/-- Witness for C2: a separators-free payload is rejected. -/
theorem c2_witness :
    ∃ e, decrypt "01234567890123456789012345678901" "zzzz" = .error e :=
  c2_missing_separator_fails "01234567890123456789012345678901" "zzzz" (by decide)

/-- Claim C3 (amended): the startup check passes exactly when a key is
configured and its JavaScript `length` — the number of UTF-16 code units,
not the number of UTF-8 bytes — is exactly 32. -/
theorem c3_startup_counts_utf16_units (ks : Option String) :
    startupOk ks = true ↔ ∃ k, ks = some k ∧ jsLength k = 32 := by
  rcases ks with _ | k
  · simp [startupOk]
  · simp only [startupOk, Bool.and_eq_true, Bool.not_eq_true', beq_iff_eq,
      Option.some.injEq]
    constructor
    · rintro ⟨_, hlen⟩
      exact ⟨k, rfl, by exact_mod_cast hlen⟩
    · rintro ⟨k2, rfl, hlen⟩
      refine ⟨?_, by exact_mod_cast hlen⟩
      rw [beq_eq_false_iff_ne]
      intro he
      rw [he, jsLength_empty] at hlen
      omega

/-- Claim C7 (amended): `decrypt` depends only on the base64-decoded first
two segments (and on a second segment existing), so a byte flip confined to
characters the decoder ignores or to discarded trailing bits goes
undetected. -/
theorem c7_decrypt_decode_invariance (key : String) {p1 p2 : String}
    (h0 : nodeB64Dec ((splitColon p1.data).getD 0 []) =
      nodeB64Dec ((splitColon p2.data).getD 0 []))
    (h1 : nodeB64Dec ((splitColon p1.data).getD 1 []) =
      nodeB64Dec ((splitColon p2.data).getD 1 []))
    (h2 : (splitColon p1.data).length < 2 ↔ (splitColon p2.data).length < 2) :
    decrypt key p1 = decrypt key p2 :=
  decrypt_depends key h0 h1 h2

/-- Claim C8: both operations are deterministic functions of key and input
(the IV being an explicit input of `encrypt`), and each returns either a
single complete result or a single error — no partial results. -/
theorem c8_deterministic_total (key payload : String) (iv : List Nat) (s : String) :
    (∀ r1 r2 : Except CryptoError String,
      encrypt key iv s = r1 → encrypt key iv s = r2 → r1 = r2) ∧
    (∀ r1 r2 : Except CryptoError String,
      decrypt key payload = r1 → decrypt key payload = r2 → r1 = r2) ∧
    ((∃ t, encrypt key iv s = .ok t) ∨ (∃ e, encrypt key iv s = .error e)) ∧
    ((∃ t, decrypt key payload = .ok t) ∨ (∃ e, decrypt key payload = .error e)) := by
  refine ⟨?_, ?_, ?_, ?_⟩
  · intro r1 r2 e1 e2
    rw [← e1, ← e2]
  · intro r1 r2 e1 e2
    rw [← e1, ← e2]
  · rcases he : encrypt key iv s with e | t
    · exact Or.inr ⟨e, rfl⟩
    · exact Or.inl ⟨t, rfl⟩
  · rcases hd : decrypt key payload with e | t
    · exact Or.inr ⟨e, rfl⟩
    · exact Or.inl ⟨t, rfl⟩

/-- Claim C9: everything after the second `:` is ignored — appending
`":" + x` to a well-formed token leaves the result of `decrypt` unchanged. -/
theorem c9_extra_segments_ignored {key t : String} {a b : List Char} {s : String}
    (x : String) (hdata : t.data = a ++ ':' :: b) (ha : ':' ∉ a) (hb : ':' ∉ b)
    (hd : decrypt key t = .ok s) : decrypt key (t ++ ":" ++ x) = .ok s := by
  have hxdata : (t ++ ":" ++ x).data = a ++ ':' :: (b ++ ':' :: x.data) := by
    rw [String.data_append, String.data_append, hdata]
    show (a ++ ':' :: b) ++ [':'] ++ x.data = _
    simp [List.append_assoc]
  have hsplit1 : splitColon (t ++ ":" ++ x).data = a :: b :: splitColon x.data := by
    rw [hxdata, splitColon_append ha, splitColon_append hb]
  have hsplit2 : splitColon t.data = [a, b] := by
    rw [hdata, splitColon_append ha, splitColon_no_colon hb]
  have hdep : decrypt key (t ++ ":" ++ x) = decrypt key t := by
    apply decrypt_depends
    · rw [hsplit1, hsplit2]
      rfl
    · rw [hsplit1, hsplit2]
      rfl
    · rw [hsplit1, hsplit2]
      simp
  rw [hdep, hd]

/-- Claim C10: a 32-code-unit key passes the startup check even when its
UTF-8 encoding is not 32 bytes, and then `createCipheriv`/`createDecipheriv`
reject every call: `encrypt` always fails with the key-length error, and
`decrypt` always fails — with the key-length error whenever the token's IV
segment decodes to 16 bytes. -/
theorem c10_multibyte_key_passes_startup_then_fails {k : String}
    (hjs : jsLength k = 32) (hmb : (utf8Encode k).length ≠ 32) :
    startupOk (some k) = true ∧
    (∀ (iv : List Nat) (s : String), iv.length = 16 →
      encrypt k iv s = .error .invalidKeyLength) ∧
    (∀ p : String, (∃ e, decrypt k p = .error e) ∧
      ((nodeB64Dec ((splitColon p.data).getD 0 [])).length = 16 →
        decrypt k p = .error .invalidKeyLength)) := by
  refine ⟨?_, ?_, ?_⟩
  · have hne : k ≠ "" := by
      intro he
      rw [he, jsLength_empty] at hjs
      exact absurd hjs (by norm_num)
    simp [startupOk, hne, hjs, beq_iff_eq]
  · intro iv s hiv
    simp only [encrypt]
    rw [if_neg (by omega), if_pos (by omega)]
  · intro p
    constructor
    · simp only [decrypt]
      by_cases h1 : (nodeB64Dec ((splitColon p.data).getD 0 [])).length ≠ 16
      · exact ⟨_, by rw [if_pos h1]⟩
      · exact ⟨_, by rw [if_neg h1, if_pos (by omega)]⟩
    · intro hiv
      simp only [decrypt]
      rw [if_neg (by omega), if_pos (by omega)]

/-- Witness for C10: thirty-two `é` characters pass the startup check (32
UTF-16 units) although the UTF-8 key is 64 bytes, and encryption then fails
with the key-length error. -/
theorem c10_witness :
    startupOk (some "éééééééééééééééééééééééééééééééé") = true ∧
    encrypt "éééééééééééééééééééééééééééééééé" (List.range 16) "hello" =
      .error .invalidKeyLength := by
  have h := c10_multibyte_key_passes_startup_then_fails
    (k := "éééééééééééééééééééééééééééééééé") (by decide) (by decide)
  exact ⟨h.1, h.2.1 (List.range 16) "hello" (by decide)⟩

/-- Claim C4: the token is the ASCII string `base64(iv) + ':' +
base64(ciphertext)` — the single colon splits it into exactly the two
base64 segments, the first decoding back to the IV and the second to the
CBC ciphertext of the padded plaintext; nothing else (no version byte,
algorithm identifier or authentication tag) is included. -/
theorem c4_token_format {key : String} {iv : List Nat}
    (hk : (utf8Encode key).length = 32) (hiv : iv.length = 16)
    (hivok : bytesOk iv) (s : String) :
    encrypt key iv s = .ok (String.mk (b64EncGroups iv ++ ':' ::
      b64EncGroups (cbcEncBytes (utf8Encode key) iv (padBytes (utf8Encode s))))) ∧
    splitColon (b64EncGroups iv ++ ':' ::
      b64EncGroups (cbcEncBytes (utf8Encode key) iv (padBytes (utf8Encode s)))) =
      [b64EncGroups iv,
       b64EncGroups (cbcEncBytes (utf8Encode key) iv (padBytes (utf8Encode s)))] ∧
    nodeB64Dec (b64EncGroups iv) = iv ∧
    nodeB64Dec (b64EncGroups (cbcEncBytes (utf8Encode key) iv
      (padBytes (utf8Encode s)))) =
      cbcEncBytes (utf8Encode key) iv (padBytes (utf8Encode s)) := by
  have hKB : bytesOk (utf8Encode key) := bytesOk_utf8Encode key
  obtain ⟨hCtOk, _⟩ := cbcEncBytes_ok hKB iv (padBytes_mod (utf8Encode s))
  refine ⟨encrypt_eq_ok hk hiv s, ?_, nodeB64Dec_enc hivok, nodeB64Dec_enc hCtOk⟩
  rw [splitColon_append
    (fun hm => b64EncGroups_no_colon iv.length iv (le_refl _) ':' hm rfl)]
  rw [splitColon_no_colon
    (fun hm => b64EncGroups_no_colon _ _ (le_refl _) ':' hm rfl)]

/-- Claim C5: distinct IVs always yield distinct tokens, and both tokens
decrypt back to the plaintext under the same key. -/
theorem c5_distinct_ivs {key : String} {iv1 iv2 : List Nat} {s : String}
    (hk : (utf8Encode key).length = 32) (h1 : iv1.length = 16)
    (h2 : iv2.length = 16) (ho1 : bytesOk iv1) (ho2 : bytesOk iv2)
    (hne : iv1 ≠ iv2) {t1 t2 : String}
    (he1 : encrypt key iv1 s = .ok t1) (he2 : encrypt key iv2 s = .ok t2) :
    t1 ≠ t2 ∧ decrypt key t1 = .ok s ∧ decrypt key t2 = .ok s := by
  refine ⟨?_, decrypt_encrypt hk h1 ho1 he1, decrypt_encrypt hk h2 ho2 he2⟩
  intro heq
  have ht1 : t1 = String.mk (b64EncGroups iv1 ++ ':' ::
      b64EncGroups (cbcEncBytes (utf8Encode key) iv1 (padBytes (utf8Encode s)))) :=
    Except.ok.inj (he1.symm.trans (encrypt_eq_ok hk h1 s))
  have ht2 : t2 = String.mk (b64EncGroups iv2 ++ ':' ::
      b64EncGroups (cbcEncBytes (utf8Encode key) iv2 (padBytes (utf8Encode s)))) :=
    Except.ok.inj (he2.symm.trans (encrypt_eq_ok hk h2 s))
  rw [ht1, ht2] at heq
  have hL := congrArg String.data heq
  obtain ⟨hiveq, _⟩ := colon_token_inj hL
    (fun hm => b64EncGroups_no_colon iv1.length iv1 (le_refl _) ':' hm rfl)
    (fun hm => b64EncGroups_no_colon iv2.length iv2 (le_refl _) ':' hm rfl)
  exact hne (b64EncGroups_inj ho1 ho2 hiveq)

/-- Claim C1: for every plaintext `s` (the empty string and multi-byte
strings included), once the key and the fresh IV pass the `createCipheriv`
checks, decrypting the token produced by `encrypt` under the same key
returns `s`. -/
theorem c1_roundtrip {key : String} {iv : List Nat} {s : String}
    (hk : (utf8Encode key).length = 32) (hiv : iv.length = 16)
    (hivok : bytesOk iv) {t : String}
    (henc : encrypt key iv s = .ok t) : decrypt key t = .ok s :=
  decrypt_encrypt hk hiv hivok henc

set_option maxRecDepth 100000 in
/-- Witness for C1: the round trip at a concrete key, IV and a 16-byte
plaintext, whose ciphertext spans both the `cipher.update` and the
`cipher.final` output. -/
theorem c1_witness :
    encrypt "01234567890123456789012345678901" (List.range 16) "0123456789abcdef" =
      .ok "AAECAwQFBgcICQoLDA0ODw==:EIQvTJ1i+Kt8DlapXQGyFIdFhdHptablGl8Y202KOC4=" ∧
    decrypt "01234567890123456789012345678901"
      "AAECAwQFBgcICQoLDA0ODw==:EIQvTJ1i+Kt8DlapXQGyFIdFhdHptablGl8Y202KOC4=" =
      .ok "0123456789abcdef" :=
  ⟨by decide, @c1_roundtrip "01234567890123456789012345678901" (List.range 16)
    "0123456789abcdef" (by decide) (by decide) (by decide)
    "AAECAwQFBgcICQoLDA0ODw==:EIQvTJ1i+Kt8DlapXQGyFIdFhdHptablGl8Y202KOC4="
    (by decide)⟩

set_option maxRecDepth 100000 in
/-- Counterexample for C2: a token whose ciphertext segment contains `!`
(so is not valid base64) is not rejected — the invalid character is skipped
and `decrypt` silently succeeds. -/
theorem c2_invalid_base64_segment_accepted :
    encrypt "01234567890123456789012345678901" (List.range 16) "hello" =
      .ok "AAECAwQFBgcICQoLDA0ODw==:cM5EzakV4OqukdfncS6UzQ==" ∧
    '!' ∈ ("AAECAwQFBgcICQoLDA0ODw==:cM5Ez!akV4OqukdfncS6UzQ==" : String).data ∧
    decrypt "01234567890123456789012345678901"
      "AAECAwQFBgcICQoLDA0ODw==:cM5Ez!akV4OqukdfncS6UzQ==" = .ok "hello" := by
  refine ⟨by decide, by decide, by decide⟩

set_option maxRecDepth 10000 in
set_option maxRecDepth 100000 in
/-- Counterexample for C3: sixteen `é` characters are exactly 32 UTF-8
bytes, yet the startup check rejects this key (its JavaScript length is 16,
not 32). -/
theorem c3_32_utf8_byte_key_rejected :
    (utf8Encode "éééééééééééééééé").length = 32 ∧
    startupOk (some "éééééééééééééééé") = false := by decide

set_option maxRecDepth 100000 in
/-- Witness for C4: the token format at a concrete key, IV and plaintext,
with the IV segment decoding back to the IV. -/
theorem c4_witness :
    encrypt "01234567890123456789012345678901" (List.range 16) "hello" =
      .ok (String.mk (b64EncGroups (List.range 16) ++ ':' ::
        b64EncGroups (cbcEncBytes (utf8Encode "01234567890123456789012345678901")
          (List.range 16) (padBytes (utf8Encode "hello"))))) ∧
    nodeB64Dec (b64EncGroups (List.range 16)) = List.range 16 := by
  have h := @c4_token_format "01234567890123456789012345678901"
    (List.range 16) (by decide) (by decide) (by decide) "hello"
  exact ⟨h.1, h.2.2.1⟩

set_option maxRecDepth 100000 in
/-- Witness for C5: two concrete distinct IVs, distinct tokens, both
decrypting back to `hello`. -/
theorem c5_witness :
    ("AAECAwQFBgcICQoLDA0ODw==:cM5EzakV4OqukdfncS6UzQ==" : String) ≠
      "AAAAAAAAAAAAAAAAAAAAAA==:0KV99uNYruGR2PcDDfDCfw==" ∧
    decrypt "01234567890123456789012345678901"
      "AAECAwQFBgcICQoLDA0ODw==:cM5EzakV4OqukdfncS6UzQ==" = .ok "hello" ∧
    decrypt "01234567890123456789012345678901"
      "AAAAAAAAAAAAAAAAAAAAAA==:0KV99uNYruGR2PcDDfDCfw==" = .ok "hello" := by
  have h := @c5_distinct_ivs "01234567890123456789012345678901"
    (List.range 16) (List.replicate 16 0) "hello"
    (by decide) (by decide) (by decide) (by decide) (by decide) (by decide)
    "AAECAwQFBgcICQoLDA0ODw==:cM5EzakV4OqukdfncS6UzQ=="
    "AAAAAAAAAAAAAAAAAAAAAA==:0KV99uNYruGR2PcDDfDCfw=="
    (by decide) (by decide)
  exact ⟨h.1, h.2.1, h.2.2⟩

set_option maxRecDepth 100000 in
/-- Counterexample for C6: decrypting the `hello` token produced under one
key with a different 32-byte key does not fail — the wrong-key padding
happens to be valid and `decrypt` succeeds. -/
theorem c6_wrong_key_can_succeed :
    encrypt "01234567890123456789012345678901" (List.range 16) "hello" =
      .ok "AAECAwQFBgcICQoLDA0ODw==:cM5EzakV4OqukdfncS6UzQ==" ∧
    ("01234567890123456789012345678901" : String) ≠
      "k0000000000000000000000000000037" ∧
    (decrypt "k0000000000000000000000000000037"
      "AAECAwQFBgcICQoLDA0ODw==:cM5EzakV4OqukdfncS6UzQ==").isOk = true := by
  refine ⟨by decide, by decide, by decide⟩

set_option maxRecDepth 100000 in
/-- Claim C6 (amended): wrong-key decryption is not guaranteed to fail — at
the exhibited keys it succeeds — but the plaintext it returns is not the
original one. -/
theorem c6_wrong_key_never_returns_original :
    (decrypt "k0000000000000000000000000000037"
      "AAECAwQFBgcICQoLDA0ODw==:cM5EzakV4OqukdfncS6UzQ==").isOk = true ∧
    decrypt "k0000000000000000000000000000037"
      "AAECAwQFBgcICQoLDA0ODw==:cM5EzakV4OqukdfncS6UzQ==" ≠ .ok "hello" := by
  refine ⟨by decide, by decide⟩

set_option maxRecDepth 100000 in
/-- Counterexample for C7: changing the final base64 character of the
ciphertext segment (index 46, `Q` to `R`) alters only discarded trailing
bits, and `decrypt` succeeds with the original plaintext instead of
failing. -/
theorem c7_single_byte_flip_undetected :
    encrypt "01234567890123456789012345678901" (List.range 16) "hello" =
      .ok "AAECAwQFBgcICQoLDA0ODw==:cM5EzakV4OqukdfncS6UzQ==" ∧
    ("AAECAwQFBgcICQoLDA0ODw==:cM5EzakV4OqukdfncS6UzR==" : String).data =
      ("AAECAwQFBgcICQoLDA0ODw==:cM5EzakV4OqukdfncS6UzQ==" : String).data.set 46 'R' ∧
    ("AAECAwQFBgcICQoLDA0ODw==:cM5EzakV4OqukdfncS6UzQ==" : String).data.getD 46 'A' =
      'Q' ∧
    decrypt "01234567890123456789012345678901"
      "AAECAwQFBgcICQoLDA0ODw==:cM5EzakV4OqukdfncS6UzR==" = .ok "hello" := by
  refine ⟨by decide, by decide, by decide, by decide⟩

set_option maxRecDepth 100000 in
/-- Witness for C7 (amended): the tampered and original tokens decode to the
same segments, so `decrypt` treats them identically. -/
theorem c7_witness :
    decrypt "01234567890123456789012345678901"
      "AAECAwQFBgcICQoLDA0ODw==:cM5EzakV4OqukdfncS6UzR==" =
    decrypt "01234567890123456789012345678901"
      "AAECAwQFBgcICQoLDA0ODw==:cM5EzakV4OqukdfncS6UzQ==" :=
  c7_decrypt_decode_invariance "01234567890123456789012345678901"
    (by decide) (by decide) (by decide)

set_option maxRecDepth 100000 in
/-- Witness for C8: determinism applied at a concrete key and payload. -/
theorem c8_witness :
    decrypt "01234567890123456789012345678901" "zz" =
      .error .invalidIvLength :=
  (c8_deterministic_total "01234567890123456789012345678901" "zz" [] "").2.1
    (decrypt "01234567890123456789012345678901" "zz")
    (.error .invalidIvLength) rfl (by decide)

set_option maxRecDepth 100000 in
/-- Witness for C9: appending `:junk` to the `hello` token leaves the
decrypted plaintext unchanged. -/
theorem c9_witness :
    decrypt "01234567890123456789012345678901"
      ("AAECAwQFBgcICQoLDA0ODw==:cM5EzakV4OqukdfncS6UzQ==" ++ ":" ++ "junk") =
      .ok "hello" :=
  c9_extra_segments_ignored (a := ("AAECAwQFBgcICQoLDA0ODw==" : String).data)
    (b := ("cM5EzakV4OqukdfncS6UzQ==" : String).data) "junk"
    (by decide) (by decide) (by decide) (by decide)

end SocialsApi
